import Mathlib

/-!
Shallow embedding of the CANedge mdf-to-parquet automation core
(backlog batch planner, trip segmenter, aggregation engine, event detector)
together with proofs settling the frozen claims C1-C10.

Python strings are modelled as lists of characters (`Str`), cloud object
stores as lists of object names where listing under an object-key string p
returns every name having p as a prefix, pandas tables as association lists
from column names to value columns, timestamps and signal values as elements
of a linearly ordered algebraic structure (instantiated at `ℤ` or `ℚ` in
concrete computations), fallible Python code as `Option`-valued functions
(`none` = an uncaught exception), and JSON documents as an inductive type.
-/

set_option maxHeartbeats 1600000

/-- Python `str` is modelled as a list of characters. -/
abbrev Str := List Char

/-- Worker for `dedupFirst` carrying the set of already-kept elements. -/
def dedupFirstAux {α : Type} [DecidableEq α] (seen : List α) : List α → List α
  | [] => []
  | a :: l => if a ∈ seen then dedupFirstAux seen l else a :: dedupFirstAux (a :: seen) l

/-- Python's `list(dict.fromkeys(files))`: remove duplicates keeping the first
occurrence of each element, preserving order (utils.py:986). -/
def dedupFirst {α : Type} [DecidableEq α] (l : List α) : List α := dedupFirstAux [] l

/-- Lookup in a Python `dict` modelled as an insertion-ordered association list. -/
def alGet {β : Type} (k : Str) : List (Str × β) → Option β
  | [] => none
  | (k', v) :: t => if k' = k then some v else alGet k t

/-- Assignment `d[k] = v` on a Python `dict`: overwrite in place if the key
exists, otherwise append the new key at the end (insertion order). -/
def alSet {β : Type} (k : Str) (v : β) : List (Str × β) → List (Str × β)
  | [] => [(k, v)]
  | (k', v') :: t => if k' = k then (k', v) :: t else (k', v') :: alSet k v t

/-- The keys of a Python `dict`, in insertion order. -/
def alKeys {β : Type} (d : List (Str × β)) : List Str := d.map Prod.fst

/-- Scan a list for the first element satisfying `p`; return it together with
the list with that element removed.  This models the
find-index-then-`result.pop(existing_list)` loop of utils.py:955-966. -/
def popFirst {α : Type} (p : α → Bool) : List α → Option (α × List α)
  | [] => none
  | a :: t =>
    if p a then some (a, t)
    else (popFirst p t).map (fun x => (x.1, a :: x.2))

/-- Consume exactly `n` characters satisfying `p` from the front of a string,
returning the remainder; `none` when the string is too short or a character
fails `p`.  Used to transcribe the fixed-width regexes of the planner. -/
def chFor (p : Char → Bool) : ℕ → Str → Option Str
  | 0, s => some s
  | _ + 1, [] => none
  | n + 1, c :: t => if p c then chFor p n t else none

/-- Consume one expected character from the front of a string. -/
def expectCh (c : Char) : Str → Option Str
  | [] => none
  | x :: t => if x = c then some t else none

/-- The character class `[0-9A-F]` of the device-id regexes. -/
def upperHex (c : Char) : Bool := c.isDigit || ('A' ≤ c && c ≤ 'F')

/-- The character class `[0-9]` of the session-id regexes. -/
def isDig (c : Char) : Bool := c.isDigit

/-- First path segment: the characters before the first `/` (Python
`s.split('/')[0]`). -/
def seg1 (s : Str) : Str := s.takeWhile (fun c => c ≠ '/')

/-- The remainder of a path after its first segment and the `/` that follows
it (so `seg1 (rest1 s)` is Python's `s.split('/')[1]`). -/
def rest1 (s : Str) : Str := (s.dropWhile (fun c => c ≠ '/')).tail

/-- The session directory inferred from a file path:
`item.split('/')[0] + "/" + item.split('/')[1] + "/"` (utils.py:946). -/
def sessionOf (s : Str) : Str := seg1 s ++ '/' :: (seg1 (rest1 s) ++ ['/'])

/-- Lexicographic comparison of strings by character code, matching how Python
`sorted` orders the object names returned by a listing. -/
def strLeB : Str → Str → Bool
  | [], _ => true
  | _ :: _, [] => false
  | a :: s, b :: t => if a = b then strLeB s t else decide (a < b)

/-- Insert into a sorted list, before the first element not smaller than the
inserted one (a stable insertion, like Python's stable `sorted`). -/
def insSorted {α : Type} (le : α → α → Bool) (a : α) : List α → List α
  | [] => [a]
  | b :: t => if le a b then a :: b :: t else b :: insSorted le a t

/-- Stable insertion sort. -/
def insSort {α : Type} (le : α → α → Bool) : List α → List α
  | [] => []
  | a :: t => insSorted le a (insSort le t)

/-- Python `sorted` on a list of strings. -/
def sortStr (l : List Str) : List Str := insSort strLeB l

/-- Contiguous chunks of size at most `k` (`files[i:i+k]` slices of the batch
splitter, utils.py:839-841); the fuel argument makes the recursion structural. -/
def chunksF {α : Type} (k : ℕ) : ℕ → List α → List (List α)
  | 0, _ => []
  | _ + 1, [] => []
  | fuel + 1, l => l.take k :: chunksF k fuel (l.drop k)

/-- `chunks k l` splits `l` into consecutive chunks of size at most `k`
(faithful to Python `range(0, len(l), k)` slicing for `k ≥ 1`). -/
def chunks {α : Type} (k : ℕ) (l : List α) : List (List α) := chunksF k l.length l

/-- JSON documents (numbers restricted to the integers actually used by the
configuration manifests). -/
inductive Json where
  | null : Json
  | bool : Bool → Json
  | num : Int → Json
  | str : Str → Json
  | arr : List Json → Json
  | obj : List (Str × Json) → Json

/-- Python truthiness of a parsed JSON value (`if not backlog_file_data`,
`if not date_mode`). -/
def pyFalsy : Json → Bool
  | Json.null => true
  | Json.bool b => !b
  | Json.num n => n == 0
  | Json.str s => s.isEmpty
  | Json.arr xs => xs.isEmpty
  | Json.obj kvs => kvs.isEmpty

/-- Key access on a JSON object (Python dict keys are unique, so first match). -/
def jGet (kvs : List (Str × Json)) (k : Str) : Option Json := alGet k kvs

/-- All elements of a JSON array as strings, `none` if one is not a string. -/
def asStrList : List Json → Option (List Str)
  | [] => some []
  | Json.str s :: t => (asStrList t).map (fun r => s :: r)
  | _ :: _ => none

namespace ProcessBacklog

/-- `self.valid_extensions` (utils.py:615). -/
def valid_extensions : List Str := [".MF4".data, ".MFC".data, ".MFE".data, ".MFM".data]

/-- `has_valid_extension` (utils.py:686-688):
`any(filename.upper().endswith(ext) for ext in self.valid_extensions)`. -/
def has_valid_extension (filename : Str) : Bool :=
  valid_extensions.any (fun e => e.isSuffixOf (filename.map Char.toUpper))

/-- Last path segment, Python `path.split('/')[-1]` (`split` never returns an
empty list, so this is the text after the last `/`). -/
def lastSeg (s : Str) : Str := (s.reverse.takeWhile (fun c => c ≠ '/')).reverse

/-- `is_likely_file_path` (utils.py:690-703): valid extension, or a dot in the
last path segment. -/
def is_likely_file_path (path : Str) : Bool :=
  has_valid_extension path || (lastSeg path).contains '.'

/-- `normalize_prefix` (utils.py:705-719), spelled `normalizePre` here: append
a trailing `/` unless the path is empty, looks like a file, or already ends
in `/`. -/
def normalizePre (path : Str) : Str :=
  if path = [] then path
  else if is_likely_file_path path then path
  else if path.getLast? = some '/' then path
  else path ++ ['/']

/-- The regex `^[0-9A-F]{8}/$` of `is_device_prefix` / the planner's case 1
(utils.py:727, 902). -/
def deviceNorm (s : Str) : Bool :=
  decide ((chFor upperHex 8 s).bind (expectCh '/') = some [])

/-- The regex `^[0-9A-F]{8}/[0-9]{8}/$` of `is_session_prefix` / the planner's
case 2 (utils.py:736, 924). -/
def sessionNorm (s : Str) : Bool :=
  decide ((((chFor upperHex 8 s).bind (expectCh '/')).bind
    (chFor isDig 8)).bind (expectCh '/') = some [])

/-- The storage collaborator: `list_objects_with_pagination` returns every
object of the store whose name begins with the requested object-key string. -/
def list_store (store : List Str) (pre : Str) : List Str :=
  store.filter (fun n => pre.isPrefixOf n)

/-- The per-object regex of `list_sessions` (utils.py:757):
`^{device_prefix}([0-9]{8})/` matched against an object name; on success
return the session directory `device_prefix + sessionid + "/"`. -/
def sessionKeyOf (devPre name : Str) : Option Str :=
  if devPre.isPrefixOf name then
    match (chFor isDig 8 (name.drop devPre.length)).bind (expectCh '/') with
    | some _ => some (devPre ++ ((name.drop devPre.length).take 8 ++ ['/']))
    | none => none
  else none

/-- One step of the object loop of `list_sessions` (utils.py:754-769),
accumulating the session set (in first-encounter order, sorted on return)
and the `objects_by_session` dict. -/
def listSessionsStep (devPre : Str) (acc : List Str × List (Str × List Str)) (name : Str) :
    List Str × List (Str × List Str) :=
  match sessionKeyOf devPre name with
  | none => acc
  | some sk =>
    let sessions := if sk ∈ acc.1 then acc.1 else acc.1 ++ [sk]
    let obs := if (alGet sk acc.2).isSome then acc.2 else alSet sk [] acc.2
    let obs :=
      if has_valid_extension name then alSet sk (((alGet sk obs).getD []) ++ [name]) obs
      else obs
    (sessions, obs)

/-- `list_sessions` (utils.py:739-772): list all objects under a device
directory, group the valid log files by session, return the sorted session
list together with `objects_by_session`. -/
def list_sessions (store : List Str) (devPre0 : Str) : List Str × List (Str × List Str) :=
  let devPre := normalizePre devPre0
  let acc := (list_store store devPre).foldl (listSessionsStep devPre) ([], [])
  (sortStr acc.1, acc.2)

/-- `list_files_in_session` (utils.py:774-789): sorted valid-extension objects
under the session directory. -/
def list_files_in_session (store : List Str) (sessPre0 : Str) : List Str :=
  let sessPre := normalizePre sessPre0
  sortStr ((list_store store sessPre).filter has_valid_extension)

/-- The mutable state of one `process_backlog` run: the finalized batch list
`result`, the `processed_sessions` set (membership only), and the per-entry
`session_lists` dict. -/
structure PBSt where
  result : List (List Str)
  processed : List Str
  session_lists : List (Str × List Str)

/-- The session loop body of the planner's case 1 (utils.py:909-921). -/
def deviceSessionStep (obs : List (Str × List Str)) (st : PBSt) (session : Str) : PBSt :=
  if session ∈ st.processed then st
  else
    let files := (alGet session obs).getD []
    { st with
      processed := st.processed ++ [session]
      session_lists := if files ≠ [] then alSet session files st.session_lists else st.session_lists }

/-- The planner's case 3 (utils.py:942-976): an individual file with a valid
extension is appended (deduplicated) to the list of its inferred session,
recovering a previously finalized batch for that session if necessary. -/
def fileItemStep (st : PBSt) (item : Str) : PBSt :=
  if 2 ≤ item.count '/' then
    let sp := sessionOf item
    let st :=
      if (alGet sp st.session_lists).isSome then st
      else if sp ∈ st.processed then
        match popFirst (fun fl => !fl.isEmpty && sp.isPrefixOf (fl.headD [])) st.result with
        | some (fl, rest) => { st with result := rest, session_lists := alSet sp fl st.session_lists }
        | none => { st with session_lists := alSet sp [] st.session_lists }
      else { st with session_lists := alSet sp [] st.session_lists }
    let cur := (alGet sp st.session_lists).getD []
    if item ∈ cur then st
    else { st with session_lists := alSet sp (cur ++ [item]) st.session_lists }
  else st

/-- The item loop body of `process_backlog` (utils.py:893-976). -/
def process_item (store : List Str) (st : PBSt) (original_item : Str) : PBSt :=
  let item := if original_item ≠ [] then normalizePre original_item else original_item
  if deviceNorm item then
    let so := list_sessions store item
    so.1.foldl (deviceSessionStep so.2) st
  else if sessionNorm item then
    if item ∈ st.processed then st
    else
      let st := { st with processed := st.processed ++ [item] }
      if (alGet item st.session_lists).getD [] ≠ [] then st
      else
        let files := list_files_in_session store item
        { st with session_lists := if files ≠ [] then alSet item files st.session_lists else st.session_lists }
  else if has_valid_extension item then fileItemStep st item
  else st

/-- The entry-list loop body of `process_backlog` (utils.py:889-987): process
the items with a fresh `session_lists` dict, mark every touched session
processed, and finalize the non-empty deduplicated session lists. -/
def process_entry_list (store : List Str) (st : PBSt) (entry_list : List Str) : PBSt :=
  let st := entry_list.foldl (process_item store) { st with session_lists := [] }
  { result := st.result ++ (st.session_lists.filter (fun kv => kv.2 ≠ [])).map (fun kv => dedupFirst kv.2)
    processed := st.processed ++ alKeys st.session_lists
    session_lists := [] }

/-- `process_backlog` (utils.py:883-989): expand the backlog reference lists
into deduplicated per-session file batches. -/
def process_backlog (store : List Str) (backlog_file_data : List (List Str)) : List (List Str) :=
  (backlog_file_data.foldl (process_entry_list store) ⟨[], [], []⟩).result

end ProcessBacklog

namespace ProcessBacklog

/-- Device id extracted from a batch's first file:
`first_file.split('/')[0] if '/' in first_file else None` (utils.py:821). -/
def deviceOf (f : Str) : Option Str :=
  if '/' ∈ f then some (seg1 f) else none

/-- The dict key `f"unknown_{len(device_batches)}"` (utils.py:831). -/
def unknownKey (n : ℕ) : Str := "unknown_".data ++ Nat.toDigits 10 n

/-- One step of the device-grouping loop of the size optimization
(utils.py:815-831): skip empty batches; extend the per-device list when the
first file yields a truthy device id, otherwise store the batch under an
`unknown_i` key. -/
def groupStep (acc : List (Str × List Str)) (batch : List Str) : List (Str × List Str) :=
  if batch = [] then acc
  else
    match deviceOf (batch.headD []) with
    | some d =>
      if d ≠ [] then alSet d (((alGet d acc).getD []) ++ batch) acc
      else alSet (unknownKey acc.length) batch acc
    | none => alSet (unknownKey acc.length) batch acc

/-- `device_batches` of the size optimization (utils.py:814-831). -/
def groupBatchesByDevice (batches : List (List Str)) : List (Str × List Str) :=
  batches.foldl groupStep []

/-- The splitting loop of the size optimization (utils.py:834-843).  Per-device
lists longer than `max_batch_size` are cut into contiguous slices
`files[i:i+max]` for `i in range(0, len(files), max)`; Python `range` raises
`ValueError` on step `0` (modelled `none`) and yields nothing for a negative
step. -/
def split_device_batches (maxB : ℤ) : List (Str × List Str) → Option (List (List Str))
  | [] => some []
  | (_, files) :: t =>
    if (files.length : ℤ) > maxB then
      if maxB = 0 then none
      else if maxB < 0 then split_device_batches maxB t
      else (split_device_batches maxB t).map (fun r => chunks maxB.toNat files ++ r)
    else (split_device_batches maxB t).map (fun r => files :: r)

/-- The size-optimization step of `process_backlog_from_cloud`
(utils.py:809-847).  `total_items` is `len(backlog_file_data)`, the number of
top-level references in the manifest.  The batch-size bounds are the raw JSON
values from the config; a non-numeric bound makes the Python comparison raise
(modelled `none`), and short-circuiting means the bounds are only looked at
when the preceding condition holds. -/
def optimize_batches (mn mx : Json) (total_items : ℕ) (backlog_batches : List (List Str)) :
    Option (List (List Str)) :=
  if 1 < backlog_batches.length then
    match mn with
    | Json.num minB =>
      if (total_items : ℤ) < minB then
        match mx with
        | Json.num maxB => split_device_batches maxB (groupBatchesByDevice backlog_batches)
        | _ => none
      else some backlog_batches
    | _ => none
  else some backlog_batches

/-- `download_backlog_json` (utils.py:619-684).  The argument is the parsed
`backlog.json` (`none` when the object is missing or is not parseable JSON).
Returns the raw `files` value together with the raw `config.batch_size.min`
and `.max` values, or `none` when a required field is missing — every `none`
is an early `return None` of the Python function.  (Membership tests against
non-dict `config`/`batch_size` values, which Python answers per its `in`
semantics before crashing on the subsequent subscript, are conflated with the
invalid-manifest outcome.) -/
def download_backlog_json (manifest : Option Json) : Option (Json × Json × Json) :=
  match manifest with
  | none => none
  | some (Json.obj kvs) =>
    match jGet kvs "files".data with
    | none => none
    | some files =>
      match jGet kvs "config".data with
      | none => none
      | some (Json.obj ckvs) =>
        match jGet ckvs "batch_size".data with
        | none => none
        | some (Json.obj bkvs) =>
          match jGet bkvs "min".data with
          | none => none
          | some mn =>
            match jGet bkvs "max".data with
            | none => none
            | some mx => some (files, mn, mx)
        | some _ => none
      | some _ => none
  | some _ => none

/-- Outcome of the planning phase of `process_backlog_from_cloud`: an early
`return False` before any planning (`fatal`), an uncaught Python exception
(`crash`), or the final batch list handed to `process_mdf_batches`. -/
inductive PlanOutcome where
  | fatal : PlanOutcome
  | crash : PlanOutcome
  | ok : List (List Str) → PlanOutcome
deriving DecidableEq

/-- The planning phase of `process_backlog_from_cloud` (utils.py:791-850):
download and validate the manifest (`if not backlog_file_data: return False`),
expand `[backlog_file_data]` through `process_backlog`, then apply the size
optimization.  Reference lists whose elements are not strings crash inside
`normalize_prefix` and are modelled as `crash`. -/
def plan_result (manifest : Option Json) (store : List Str) : PlanOutcome :=
  match download_backlog_json manifest with
  | none => PlanOutcome.fatal
  | some (files, mn, mx) =>
    if pyFalsy files then PlanOutcome.fatal
    else
      match files with
      | Json.arr items =>
        match asStrList items with
        | none => PlanOutcome.crash
        | some refs =>
          match optimize_batches mn mx items.length (process_backlog store [refs]) with
          | none => PlanOutcome.crash
          | some bs => PlanOutcome.ok bs
      | _ => PlanOutcome.crash

/-- Modelled from the spec wording of C2 ("batch order within a list reflects
first-seen order from input"): the chronological sequence in which file paths
are first encountered while scanning the expanded reference lists — a device
reference contributes its valid log files in listing order, a session
reference its listed files, a file reference itself. -/
def claimSeenSeq (store : List Str) (refs : List (List Str)) : List Str :=
  refs.flatten.flatMap (fun original =>
    let item := normalizePre original
    if deviceNorm item then (list_store store item).filter has_valid_extension
    else if sessionNorm item then list_files_in_session store item
    else if has_valid_extension item then [item]
    else [])

/-- `process_mdf_batches` (utils.py:852-881): run every batch (the oracle
`run i b` is the `try: mdf_to_parquet(...)` block of batch `i` — `false` when
it raised), and return the conjunction `all(batch_results)`. -/
def process_mdf_batches (run : ℕ → List Str → Bool) (backlog_batches : List (List Str)) : Bool :=
  (backlog_batches.mapIdx (fun i b => run i b)).all id

/-- `process_backlog_from_cloud` (utils.py:791-850): `some false` on the
early-out, `none` on an uncaught exception, otherwise the conjunction of the
per-batch results. -/
def process_backlog_from_cloud (manifest : Option Json) (store : List Str)
    (run : ℕ → List Str → Bool) : Option Bool :=
  match plan_result manifest store with
  | PlanOutcome.fatal => some false
  | PlanOutcome.crash => none
  | PlanOutcome.ok bs => some (process_mdf_batches run bs)

end ProcessBacklog

namespace DetectEvents

/-- The notification block at the tail of the event/file/signal loops of
`process_events` (utils.py:333-339): one unit is the `EventValue` column of
one non-empty `df_signal_event_meta` (one (file, trigger-signal) iteration in
loop order); empty event frames are skipped (utils.py:319-321).  `pub` is the
result `publish_message` returns when invoked; the pair threads
`message_sent` and counts how many times a notification was published. -/
def processEventUnits (pub : Bool) : List (List ℤ) → Bool → ℕ → Bool × ℕ
  | [], ms, n => (ms, n)
  | u :: rest, ms, n =>
    if u.isEmpty then processEventUnits pub rest ms n
    else
      let startRows := u.filter (fun v => decide (v = 1))
      if !ms && !startRows.isEmpty then processEventUnits pub rest pub (n + 1)
      else processEventUnits pub rest ms n

/-- The event loop of `process_events` (utils.py:286-339): `message_sent` is
re-bound to `False` at the top of every event iteration (utils.py:292); the
result is the total number of notification publishes in the run. -/
def process_events (pub : Bool) (events : List (List (List ℤ))) : ℕ :=
  events.foldl (fun n ev => (processEventUnits pub ev false n).2) 0

/-- An event (as the list of its per-unit `EventValue` columns) for which some
non-empty unit contains a Start record (`EventValue == 1`). -/
def eventHasStart (ev : List (List ℤ)) : Bool :=
  ev.any (fun u => !u.isEmpty && !(u.filter (fun v => decide (v = 1))).isEmpty)

/-- The `below_lower` column of `create_df_signal_event` (utils.py:385-389):
`value == lower` under `exact_match`, else `value <= lower`. -/
def below_lower {α : Type} [LinearOrder α] (exact : Bool) (lower : α) (vals : List α) : List Bool :=
  vals.map (fun v => if exact then decide (v = lower) else decide (v ≤ lower))

/-- The `above_upper` column of `create_df_signal_event` (utils.py:385-390):
`value == upper` under `exact_match`, else `value >= upper`. -/
def above_upper {α : Type} [LinearOrder α] (exact : Bool) (upper : α) (vals : List α) : List Bool :=
  vals.map (fun v => if exact then decide (v = upper) else decide (upper ≤ v))

/-- `df[col].rolling(window=len(df), min_periods=1).max().shift(1, fill_value=0) == 1`
(utils.py:393-394): whether any strictly earlier sample satisfied the column. -/
def wasAny (bs : List Bool) (i : ℕ) : Bool := (bs.take i).any id

/-- Whether the run-length grouping counter `(col != col.shift(1)).cumsum()`
increments at position `k` (utils.py:397-398); position 0 always counts
(`NaN` compares unequal). -/
def changedAt (bs : List Bool) (k : ℕ) : Bool :=
  k == 0 || decide (bs.getD k false ≠ bs.getD (k - 1) false)

/-- The run-length group id of position `i` under the grouping of `bs`
(`event_group_rise` / `event_group_fall`, utils.py:397-398). -/
def event_group (bs : List Bool) (i : ℕ) : ℕ :=
  ((List.range (i + 1)).filter (changedAt bs)).length

/-- `drop_duplicates(subset=key, keep='first')` on a list of row positions:
keep each position whose key has not been seen among earlier kept-or-seen
rows. -/
def dedupByKey (key : ℕ → ℕ) : List ℕ → List ℕ → List ℕ
  | [], _ => []
  | i :: rest, seen =>
    if key i ∈ seen then dedupByKey key rest seen
    else i :: dedupByKey key rest (key i :: seen)

/-- The row positions of `df_rising` (utils.py:401): rows with
`above_upper & was_below_lower == 1`, deduplicated by `event_group_rise`
(the run grouping of `below_lower`), keeping the first of each group. -/
def df_rising {α : Type} [LinearOrder α] (exact : Bool) (lower upper : α) (vals : List α) :
    List ℕ :=
  let below := below_lower exact lower vals
  let above := above_upper exact upper vals
  dedupByKey (event_group below)
    ((List.range vals.length).filter (fun i => above.getD i false && wasAny below i)) []

/-- The row positions of `df_falling` (utils.py:402): rows with
`below_lower & was_above_upper == 1`, deduplicated by `event_group_fall`
(the run grouping of `above_upper`), keeping the first of each group. -/
def df_falling {α : Type} [LinearOrder α] (exact : Bool) (lower upper : α) (vals : List α) :
    List ℕ :=
  let below := below_lower exact lower vals
  let above := above_upper exact upper vals
  dedupByKey (event_group above)
    ((List.range vals.length).filter (fun i => below.getD i false && wasAny above i)) []

/-- Modelled from the spec wording of C5: a rising-edge sample is the first
sample of each maximal run of consecutive `above_upper == true` samples in
which `was_below_lower` holds. -/
def claimRising {α : Type} [LinearOrder α] (exact : Bool) (lower upper : α) (vals : List α) :
    List ℕ :=
  let below := below_lower exact lower vals
  let above := above_upper exact upper vals
  (List.range vals.length).filter
    (fun i => above.getD i false && (i == 0 || !above.getD (i - 1) false) && wasAny below i)

end DetectEvents

namespace Aggregation

section TripWindows

variable {α : Type} [LinearOrderedAddCommGroup α]

/-- The break rows of `get_trip_windows` (aggregation.py:312-315): positions
whose time difference to the predecessor exceeds `trip_gap_min` (the first
row's `diff()` is `NaN`, which never exceeds the gap).  Timestamps are taken
in minutes, absorbing the `total_seconds()/60` conversion. -/
def tripBreaks (ts : List α) (gap : α) : List ℕ :=
  (List.range ts.length).filter
    (fun i => decide (0 < i) && decide (gap < ts.getD i 0 - ts.getD (i - 1) 0))

/-- The window-building loop of `get_trip_windows` (aggregation.py:330-353)
over the list of trip-start positions: each start except the last is paired
with the position just before the next start, the last with the final row. -/
def windowsOfStarts (ts : List α) : List ℕ → List (α × α)
  | [] => []
  | [a] => [(ts.getD a 0, ts.getD (ts.length - 1) 0)]
  | a :: b :: rest => (ts.getD a 0, ts.getD (b - 1) 0) :: windowsOfStarts ts (b :: rest)

/-- The core of `get_trip_windows` (aggregation.py:293-356) on an ascending
timestamp sequence: windows from position 0 and every break position, filtered
by `trip_length >= trip_min_length_min`.  (The pandas code indexes with the
original row labels, which coincide with positions on ascending input.) -/
def trip_windows_of (ts : List α) (gap m : α) : List (α × α) :=
  if ts.isEmpty then []
  else (windowsOfStarts ts (0 :: tripBreaks ts gap)).filter (fun w => decide (m ≤ w.2 - w.1))

/-- `get_trip_windows` (aggregation.py:283-360) at the table level: the whole
body runs inside `try/except`, so a missing `TimeStamp` column or a column
with an unparseable entry (`none`) yields `[]`; otherwise the values are
sorted and segmented. -/
def get_trip_windows (tbl : List (Str × List (Option α))) (gap m : α) : List (α × α) :=
  match alGet "TimeStamp".data tbl with
  | none => []
  | some col =>
    match col.mapM id with
    | none => []
    | some ts => trip_windows_of (ts.mergeSort (fun a b => decide (a ≤ b))) gap m

end TripWindows

/-- A decoded message table: the time column plus named signal columns
(`TimeStamp` in aggregation.py, `t` in the vA.0.2 script). -/
structure Table (α : Type) where
  t : List α
  cols : List (Str × List α)

section AggDefs

variable {α : Type} [LinearOrderedField α]

/-- Row filter `df[(df[time] >= start) & (df[time] <= end)]` shared by both
`process_aggregation_for_trip` variants: keep the rows (by position) whose
timestamp lies in the inclusive window. -/
def filterWindow (tb : Table α) (s e : α) : Table α :=
  let keep := (List.range tb.t.length).filter
    (fun k => decide (s ≤ tb.t.getD k 0) && decide (tb.t.getD k 0 ≤ e))
  ⟨keep.map (fun k => tb.t.getD k 0),
   tb.cols.map (fun kv => (kv.1, keep.map (fun k => kv.2.getD k 0)))⟩

/-- pandas `.mean()` of a column without nulls. -/
def listMean (l : List α) : α := l.sum / (l.length : α)

/-- pandas `.max()` of a (non-empty) column. -/
def listMax (l : List α) : α := l.foldl max (l.headD 0)

/-- pandas `.min()` of a (non-empty) column. -/
def listMin (l : List α) : α := l.foldl min (l.headD 0)

/-- pandas `.median()`: midpoint of the sorted column. -/
def listMedian (l : List α) : α :=
  let s := l.mergeSort (fun a b => decide (a ≤ b))
  if l.length % 2 = 1 then s.getD (l.length / 2) 0
  else (s.getD (l.length / 2 - 1) 0 + s.getD (l.length / 2) 0) / 2

/-- pandas `.diff()` followed by a null-skipping reduction: the list of
consecutive differences. -/
def diffList (l : List α) : List α := (l.zip l.tail).map (fun p => p.2 - p.1)

end AggDefs

/-- One aggregation result dict of `process_aggregation_for_trip`
(aggregation.py:433-444): note there is no count and no trip-id field; the
rendered `date` string is abstracted as the trip-start value it is derived
from. -/
structure AggRecord (α : Type) where
  device_id : Str
  cluster : Str
  message : Str
  signal : Str
  aggregation : Str
  value : α
  start_time : α
  end_time : α
  date : α
deriving DecidableEq

/-- `process_aggregation_for_trip` (aggregation.py:372-448): filter the table
to the inclusive trip window; empty → no records; for each configured signal
present in the table and each aggregation type among `avg`/`min`/`max`/`count`
emit one record (unsupported types are skipped with a warning; `count` is
`len(trip_df)`, the filtered row count). -/
def process_aggregation_for_trip {α : Type} [LinearOrderedField α]
    (device_id message : Str) (signals aggregation_types : List Str)
    (trip_window : α × α) (cluster_name : Str) (df : Table α) : List (AggRecord α) :=
  let trip_df := filterWindow df trip_window.1 trip_window.2
  if trip_df.t.length = 0 then []
  else
    signals.foldl
      (fun acc signal =>
        match alGet signal trip_df.cols with
        | none => acc
        | some col =>
          acc ++ aggregation_types.filterMap (fun agg_type =>
            let value : Option α :=
              if agg_type = "avg".data then some (listMean col)
              else if agg_type = "min".data then some (listMin col)
              else if agg_type = "max".data then some (listMax col)
              else if agg_type = "count".data then some ((trip_df.t.length : α))
              else none
            value.map (fun v =>
              ⟨device_id, cluster_name, message, signal, agg_type, v,
               trip_window.1, trip_window.2, trip_window.1⟩)))
      []

/-- A calendar date parsed by `datetime.strptime(_, '%Y-%m-%d')`. -/
structure DateS where
  y : ℕ
  m : ℕ
  d : ℕ
deriving DecidableEq

/-- Gregorian leap-year rule used by `datetime`. -/
def isLeap (y : ℕ) : Bool := (y % 4 = 0 && y % 100 ≠ 0) || y % 400 = 0

/-- Days in a month per `datetime`. -/
def daysInMonth (y m : ℕ) : ℕ :=
  if m = 2 then (if isLeap y then 29 else 28)
  else if m = 4 ∨ m = 6 ∨ m = 9 ∨ m = 11 then 30 else 31

/-- Digit string to number. -/
def natOf (s : Str) : ℕ := s.foldl (fun n c => 10 * n + (c.toNat - '0'.toNat)) 0

/-- `datetime.strptime(s, '%Y-%m-%d')` as a partial parser: exactly three
dash-separated digit groups (`%Y` is four digits, `%m`/`%d` one or two), with
the range checks CPython's `_strptime` regexes and the `datetime` constructor
perform; `none` models the raised `ValueError`. -/
def parseYMD (s : Str) : Option DateS :=
  match s.splitOn '-' with
  | [ys, ms, ds] =>
    if ys.length = 4 && ys.all isDig && (ms.length = 1 || ms.length = 2) && ms.all isDig
        && (ds.length = 1 || ds.length = 2) && ds.all isDig then
      let y := natOf ys
      let mo := natOf ms
      let d := natOf ds
      if 1 ≤ y && 1 ≤ mo && mo ≤ 12 && 1 ≤ d && d ≤ daysInMonth y mo then
        some ⟨y, mo, d⟩
      else none
    else none
  | _ => none

/-- The date configuration `_extract_config_parameters` ends up installing. -/
inductive DateCfg where
  | previousDay : DateCfg
  | specificPeriod : DateS → DateS → DateCfg
deriving DecidableEq

/-- Result of a Python call: normal return, a raised `ValueError`, or any
other uncaught exception (`crash`). -/
inductive PyRes (α : Type) where
  | ok : α → PyRes α
  | valueError : PyRes α
  | crash : PyRes α
deriving DecidableEq

/-- `_extract_config_parameters` (aggregation.py:132-184), date part (the trip
part only copies optional numbers and cannot raise).  `valueError` is a raised
`ValueError`: missing `config.date`, missing/falsy `mode`, unknown mode, a
missing `start_date`/`end_date` in `specific_period` mode, or a date string
`strptime` rejects.  Non-string dates make `strptime` raise `TypeError`
(`crash`), as does subscripting non-object json. -/
def extract_config_parameters (config : Json) : PyRes DateCfg :=
  match config with
  | Json.obj kvs =>
    match jGet kvs "config".data with
    | some (Json.obj ckvs) =>
      match jGet ckvs "date".data with
      | some (Json.obj dkvs) =>
        match jGet dkvs "mode".data with
        | none => PyRes.valueError
        | some mj =>
          if pyFalsy mj then PyRes.valueError
          else
            match mj with
            | Json.str s =>
              if s = "previous_day".data then PyRes.ok DateCfg.previousDay
              else if s = "specific_period".data then
                match jGet dkvs "start_date".data, jGet dkvs "end_date".data with
                | some s1, some s2 =>
                  (match s1 with
                  | Json.str ss =>
                    (match parseYMD ss with
                    | none => PyRes.valueError
                    | some d1 =>
                      match s2 with
                      | Json.str es =>
                        (match parseYMD es with
                        | none => PyRes.valueError
                        | some d2 => PyRes.ok (DateCfg.specificPeriod d1 d2))
                      | _ => PyRes.crash)
                  | _ => PyRes.crash)
                | _, _ => PyRes.valueError
              else PyRes.valueError
            | _ => PyRes.valueError
      | some _ => PyRes.crash
      | none => PyRes.valueError
    | some _ => PyRes.crash
    | none => PyRes.valueError
  | _ => PyRes.crash

end Aggregation

namespace AggS3

section S3TripWindows

variable {α : Type} [LinearOrderedAddCommGroup α]

/-- `trip_starts` of the vA.0.2 `get_trip_windows` (vA.0.2 script:174-179):
the timestamp values whose difference to the predecessor exceeds the gap,
with the first timestamp prepended unless its value already occurs among
them. -/
def trip_starts_of (ts : List α) (gap : α) : List α :=
  let brks := ((List.range ts.length).filter
      (fun i => decide (0 < i) && decide (gap < ts.getD i 0 - ts.getD (i - 1) 0))).map
    (fun i => ts.getD i 0)
  if ts.headD 0 ∈ brks then brks else ts.headD 0 :: brks

/-- `df[df["t"] < next_start]["t"].iloc[-1]` (vA.0.2 script:185): the last
timestamp value strictly below `v`; `none` models the `IndexError` raised on
an empty selection. -/
def lastBefore (ts : List α) (v : α) : Option α :=
  (ts.filter (fun x => decide (x < v))).getLast?

/-- The window construction of the vA.0.2 `get_trip_windows`
(vA.0.2 script:174-198) on the concatenated `t` column: zip the trip starts
with the per-start last-timestamp-before-next-start ends (plus the final
timestamp), and drop windows shorter than the minimum length. -/
def trip_windows_core (ts : List α) (gap m : α) : Option (List (α × α)) :=
  let starts := trip_starts_of ts gap
  match (List.range (starts.length - 1)).mapM
      (fun i => lastBefore ts (starts.getD (i + 1) 0)) with
  | none => none
  | some ends0 =>
    some (((starts.zip (ends0 ++ [ts.getLastD 0])).filter
      (fun w => decide (m ≤ w.2 - w.1))))

/-- The vA.0.2 `get_trip_windows` (vA.0.2 script:153-198).  Unlike the
aggregation.py variant it has no `try/except`: when the file listing is empty
it returns `[]`, but a missing `t` column (`KeyError`), an unparseable
timestamp (`pd.to_datetime` raising) or an empty concatenated frame
(`IndexError` at `iloc[0]`) raise to the caller, modelled as `none`. -/
def get_trip_windows (files_found : Bool)
    (tbl : List (Str × List (Option α))) (gap m : α) : Option (List (α × α)) :=
  if !files_found then some []
  else
    match alGet "t".data tbl with
    | none => none
    | some col =>
      match col.mapM id with
      | none => none
      | some ts => if ts.isEmpty then none else trip_windows_core ts gap m

end S3TripWindows

/-- One result row of the vA.0.2 `process_aggregation_for_trip`
(vA.0.2 script:259-274); the `strftime('%Y%m%dT%H%M%S.%f')` rendering inside
the trip id is abstracted as the `(device_id, trip_start)` pair it injectively
encodes at microsecond resolution. -/
structure AggRow (α : Type) where
  device_id : Str
  message : Str
  signal : Str
  aggregation : Str
  value : α
  count : ℕ
  duration : α
  trip_start : α
  trip_end : α
  trip_id : Str × α
  cluster : Str
deriving DecidableEq

/-- `process_aggregation_for_trip` (vA.0.2 script:208-276): filter the table
to the inclusive window; for each configured signal present in the table and
each aggregation type evaluate the `avg`/`median`/`max`/`min`/`sum`/`first`/
`last`/`delta_sum`/`delta_sum_pos`/`delta_sum_neg` chain (any other type
leaves `result_value = None`, so no row is emitted); every row carries the
non-null count of the signal column, the max−min duration of the filtered
window, and the device/trip-start id. -/
def process_aggregation_for_trip {α : Type} [LinearOrderedField α]
    (device_id message : Str) (signals aggregation_types : List Str)
    (trip_window : α × α) (cluster_name : Str) (df : Aggregation.Table α) :
    List (AggRow α) :=
  let fdf := Aggregation.filterWindow df trip_window.1 trip_window.2
  if fdf.t.isEmpty then []
  else
    signals.foldl
      (fun acc signal =>
        match alGet signal fdf.cols with
        | none => acc
        | some col =>
          acc ++ aggregation_types.filterMap (fun aggregation_type =>
            let result_value : Option α :=
              if aggregation_type = "avg".data then some (Aggregation.listMean col)
              else if aggregation_type = "median".data then some (Aggregation.listMedian col)
              else if aggregation_type = "max".data then some (Aggregation.listMax col)
              else if aggregation_type = "min".data then some (Aggregation.listMin col)
              else if aggregation_type = "sum".data then some col.sum
              else if aggregation_type = "first".data then some (col.headD 0)
              else if aggregation_type = "last".data then some (col.getLastD 0)
              else if aggregation_type = "delta_sum".data then
                some (Aggregation.diffList col).sum
              else if aggregation_type = "delta_sum_pos".data then
                some (((Aggregation.diffList col).filter (fun d => decide (0 < d))).sum)
              else if aggregation_type = "delta_sum_neg".data then
                some (((Aggregation.diffList col).filter (fun d => decide (d < 0))).sum)
              else none
            let count := col.length
            let duration := Aggregation.listMax fdf.t - Aggregation.listMin fdf.t
            result_value.map (fun v =>
              ⟨device_id, message, signal, aggregation_type, v, count, duration,
               trip_window.1, trip_window.2, (device_id, trip_window.1), cluster_name⟩)))
      []

end AggS3

/-- The shape of every session-directory string the planner keys on:
a slash-free segment, a slash, a slash-free segment, a slash. -/
def SessShape (sp : Str) : Prop :=
  ∃ a b : Str, '/' ∉ a ∧ '/' ∉ b ∧ sp = a ++ '/' :: (b ++ ['/'])

/-- A well-formed batch of the planner: non-empty, duplicate-free, and all its
files live in the session directory `sp`. -/
def BatchOK (sp : Str) (b : List Str) : Prop :=
  b ≠ [] ∧ b.Nodup ∧ ∀ f ∈ b, sessionOf f = sp ∧ ∃ r, f = sp ++ r

/-- Session directory of a (non-empty) batch, read off its first file. -/
def batchSess (b : List Str) : Str := sessionOf (b.headD [])

/-- The state invariant of `process_backlog`: finalized batches are
well-formed with pairwise-distinct sessions already marked processed, and the
per-entry `session_lists` dict is keyed consistently, without key duplicates,
by sessions distinct from every finalized batch. -/
def PBInv (st : ProcessBacklog.PBSt) : Prop :=
  (∀ b ∈ st.result, BatchOK (batchSess b) b) ∧
  (st.result.map batchSess).Nodup ∧
  (∀ b ∈ st.result, batchSess b ∈ st.processed) ∧
  (∀ kv ∈ st.session_lists, ∀ f ∈ kv.2, sessionOf f = kv.1 ∧ ∃ r, f = kv.1 ++ r) ∧
  (alKeys st.session_lists).Nodup ∧
  (∀ kv ∈ st.session_lists, ∀ b ∈ st.result, batchSess b ≠ kv.1)

namespace ListLemmas

theorem dedupFirstAux_mem {α : Type} [DecidableEq α] (seen : List α) (l : List α) (x : α) :
    x ∈ dedupFirstAux seen l ↔ x ∈ l ∧ x ∉ seen := by
  induction l generalizing seen with
  | nil => simp [dedupFirstAux]
  | cons a t ih =>
    by_cases ha : a ∈ seen
    · simp only [dedupFirstAux, if_pos ha, ih, List.mem_cons]
      constructor
      · rintro ⟨hx, hn⟩; exact ⟨Or.inr hx, hn⟩
      · rintro ⟨hx | hx, hn⟩
        · exact absurd (hx ▸ ha) hn
        · exact ⟨hx, hn⟩
    · simp only [dedupFirstAux, if_neg ha, List.mem_cons, ih]
      constructor
      · rintro (rfl | ⟨hx, hn⟩)
        · exact ⟨Or.inl rfl, ha⟩
        · refine ⟨Or.inr hx, fun hc => hn (Or.inr hc)⟩
      · rintro ⟨rfl | hx, hn⟩
        · exact Or.inl rfl
        · by_cases hxa : x = a
          · exact Or.inl hxa
          · exact Or.inr ⟨hx, by simp [hxa, hn]⟩

theorem dedupFirstAux_nodup {α : Type} [DecidableEq α] (seen : List α) (l : List α) :
    (dedupFirstAux seen l).Nodup := by
  induction l generalizing seen with
  | nil => simp [dedupFirstAux]
  | cons a t ih =>
    by_cases ha : a ∈ seen
    · simpa [dedupFirstAux, if_pos ha] using ih seen
    · simp only [dedupFirstAux, if_neg ha, List.nodup_cons]
      refine ⟨fun hc => ?_, ih (a :: seen)⟩
      exact ((dedupFirstAux_mem _ _ _).mp hc).2 (List.mem_cons_self _ _)

theorem dedupFirst_mem {α : Type} [DecidableEq α] (l : List α) (x : α) :
    x ∈ dedupFirst l ↔ x ∈ l := by
  simp [dedupFirst, dedupFirstAux_mem]

theorem dedupFirst_nodup {α : Type} [DecidableEq α] (l : List α) : (dedupFirst l).Nodup :=
  dedupFirstAux_nodup [] l

theorem dedupFirst_ne_nil {α : Type} [DecidableEq α] (l : List α) (h : l ≠ []) :
    dedupFirst l ≠ [] := by
  cases l with
  | nil => exact absurd rfl h
  | cons a t => simp [dedupFirst, dedupFirstAux]

theorem insSorted_perm {α : Type} (le : α → α → Bool) (a : α) (l : List α) :
    List.Perm (insSorted le a l) (a :: l) := by
  induction l with
  | nil => simp [insSorted]
  | cons b t ih =>
    by_cases h : le a b
    · simp [insSorted, h]
    · simp only [insSorted, if_neg h]
      exact (List.Perm.cons b ih).trans (List.Perm.swap a b t)

theorem insSort_perm {α : Type} (le : α → α → Bool) (l : List α) :
    List.Perm (insSort le l) l := by
  induction l with
  | nil => simp [insSort]
  | cons a t ih => exact (insSorted_perm le a (insSort le t)).trans (List.Perm.cons a ih)

theorem sortStr_mem (l : List Str) (x : Str) : x ∈ sortStr l ↔ x ∈ l :=
  (insSort_perm strLeB l).mem_iff

theorem popFirst_eq_none {α : Type} (p : α → Bool) (l : List α) :
    popFirst p l = none ↔ ∀ x ∈ l, p x = false := by
  induction l with
  | nil => simp [popFirst]
  | cons a t ih =>
    by_cases h : p a
    · simp [popFirst, h]
    · simp only [popFirst, if_neg h]
      cases hrec : popFirst p t with
      | some v =>
        simp only [Option.map_some']
        constructor
        · intro hc; exact absurd hc (by simp)
        · intro hall
          exact absurd (ih.mpr (fun x hx => hall x (List.mem_cons_of_mem _ hx)))
            (by simp [hrec])
      | none =>
        simp only [Option.map_none']
        constructor
        · intro _ x hx
          rcases List.mem_cons.mp hx with rfl | hx
          · exact Bool.eq_false_iff.mpr h
          · exact (ih.mp hrec) x hx
        · intro _; trivial

theorem popFirst_eq_some {α : Type} (p : α → Bool) (l : List α) (a : α) (r : List α)
    (h : popFirst p l = some (a, r)) :
    p a = true ∧ ∃ l1 l2, l = l1 ++ a :: l2 ∧ r = l1 ++ l2 ∧ ∀ x ∈ l1, p x = false := by
  induction l generalizing r with
  | nil => simp [popFirst] at h
  | cons b t ih =>
    by_cases hb : p b
    · simp only [popFirst, if_pos hb, Option.some.injEq, Prod.mk.injEq] at h
      obtain ⟨rfl, rfl⟩ := h
      exact ⟨hb, [], t, by simp⟩
    · simp only [popFirst, if_neg hb] at h
      cases hrec : popFirst p t with
      | none => rw [hrec] at h; simp at h
      | some v =>
        rw [hrec] at h
        simp only [Option.map_some', Option.some.injEq, Prod.mk.injEq] at h
        obtain ⟨rfl, rfl⟩ := h
        obtain ⟨hpa, l1, l2, hvl, hvr, hl1⟩ := ih v.2 (by rw [hrec])
        refine ⟨hpa, b :: l1, l2, by rw [hvl]; rfl, by rw [hvr]; rfl, ?_⟩
        intro x hx
        rcases List.mem_cons.mp hx with rfl | hx
        · exact Bool.eq_false_iff.mpr hb
        · exact hl1 x hx

end ListLemmas

namespace ListLemmas

theorem alGet_alSet_self {β : Type} (k : Str) (v : β) (d : List (Str × β)) :
    alGet k (alSet k v d) = some v := by
  induction d with
  | nil => simp [alGet, alSet]
  | cons kv t ih =>
    by_cases h : kv.1 = k
    · simp [alSet, alGet, h]
    · simpa [alSet, alGet, h] using ih

theorem alGet_alSet_ne {β : Type} (k k' : Str) (v : β) (d : List (Str × β)) (h : k' ≠ k) :
    alGet k' (alSet k v d) = alGet k' d := by
  induction d with
  | nil =>
    simp only [alSet, alGet]
    rw [if_neg (fun hc : k = k' => h hc.symm)]
  | cons kv t ih =>
    by_cases hk : kv.1 = k
    · have hkk : ¬ k = k' := fun hc => h hc.symm
      simp only [alSet, if_pos hk, alGet, hkk, if_false]
      rw [if_neg (hk ▸ hkk), if_neg (fun hc : kv.1 = k' => hkk (hk ▸ hc))]
    · simp only [alSet, if_neg hk, alGet]
      by_cases hk' : kv.1 = k'
      · rw [if_pos hk', if_pos hk']
      · rw [if_neg hk', if_neg hk', ih]

theorem alKeys_alSet {β : Type} (k : Str) (v : β) (d : List (Str × β)) :
    alKeys (alSet k v d) = if k ∈ alKeys d then alKeys d else alKeys d ++ [k] := by
  induction d with
  | nil => simp [alSet, alKeys]
  | cons kv t ih =>
    by_cases h : kv.1 = k
    · simp only [alSet, if_pos h, alKeys, List.map_cons]
      rw [if_pos (List.mem_cons.mpr (Or.inl h.symm))]
    · have hne : ¬ k = kv.1 := fun hc => h hc.symm
      have ih' : List.map Prod.fst (alSet k v t) =
          if k ∈ List.map Prod.fst t then List.map Prod.fst t
          else List.map Prod.fst t ++ [k] := by
        simpa only [alKeys] using ih
      simp only [alSet, if_neg h, alKeys, List.map_cons, ih']
      by_cases hm : k ∈ List.map Prod.fst t
      · rw [if_pos hm, if_pos (List.mem_cons_of_mem _ hm)]
      · rw [if_neg hm, if_neg (fun hc => (List.mem_cons.mp hc).elim hne hm), List.cons_append]

theorem alKeys_nodup_alSet {β : Type} (k : Str) (v : β) (d : List (Str × β))
    (h : (alKeys d).Nodup) : (alKeys (alSet k v d)).Nodup := by
  rw [alKeys_alSet]
  by_cases hm : k ∈ alKeys d
  · rwa [if_pos hm]
  · rw [if_neg hm]
    refine List.Nodup.append h (List.nodup_singleton k) ?_
    intro a ha hb
    rw [List.mem_singleton] at hb
    exact hm (hb ▸ ha)

theorem mem_alSet {β : Type} (k : Str) (v : β) (d : List (Str × β))
    (hn : (alKeys d).Nodup) (kv : Str × β) (h : kv ∈ alSet k v d) :
    kv = (k, v) ∨ (kv ∈ d ∧ kv.1 ≠ k) := by
  induction d with
  | nil =>
    simp only [alSet, List.mem_singleton] at h
    exact Or.inl h
  | cons kv' t ih =>
    simp only [alKeys, List.map_cons, List.nodup_cons] at hn
    by_cases hk : kv'.1 = k
    · simp only [alSet, if_pos hk, List.mem_cons] at h
      rcases h with rfl | h
      · left
        rw [hk]
      · right
        refine ⟨List.mem_cons_of_mem _ h, fun hc => ?_⟩
        exact hn.1 (hk ▸ hc ▸ (List.mem_map.mpr ⟨kv, h, rfl⟩))
    · simp only [alSet, if_neg hk, List.mem_cons] at h
      rcases h with rfl | h
      · right
        constructor
        · rw [Prod.mk.eta]
          exact List.mem_cons_self _ _
        · exact hk
      · rcases ih hn.2 h with hl | ⟨hm, hne⟩
        · exact Or.inl hl
        · exact Or.inr ⟨List.mem_cons_of_mem _ hm, hne⟩

theorem alGet_mem {β : Type} (k : Str) (d : List (Str × β)) (v : β)
    (h : alGet k d = some v) : (k, v) ∈ d := by
  induction d with
  | nil => simp [alGet] at h
  | cons kv t ih =>
    by_cases hk : kv.1 = k
    · simp only [alGet, if_pos hk, Option.some.injEq] at h
      have hkv : (k, v) = kv := by
        rw [← hk, ← h]
      exact hkv ▸ List.mem_cons_self _ _
    · simp only [alGet, if_neg hk] at h
      exact List.mem_cons_of_mem _ (ih h)

theorem alGet_isSome_iff {β : Type} (k : Str) (d : List (Str × β)) :
    (alGet k d).isSome = true ↔ k ∈ alKeys d := by
  induction d with
  | nil => simp [alGet, alKeys]
  | cons kv t ih =>
    by_cases hk : kv.1 = k
    · simp only [alGet, if_pos hk, Option.isSome_some, alKeys, List.map_cons, List.mem_cons,
        true_iff]
      exact Or.inl hk.symm
    · simp only [alGet, if_neg hk, ih, alKeys, List.map_cons, List.mem_cons]
      constructor
      · exact Or.inr
      · intro hc
        rcases hc with hc | hc
        · exact absurd hc.symm hk
        · exact hc


end ListLemmas

namespace StrLemmas

theorem isPrefixOf_iff_ex {α : Type} [DecidableEq α] (a b : List α) :
    a.isPrefixOf b = true ↔ ∃ r, b = a ++ r := by
  induction a generalizing b with
  | nil => simp [List.isPrefixOf]
  | cons x xs ih =>
    cases b with
    | nil => simp [List.isPrefixOf]
    | cons y ys =>
      simp only [List.isPrefixOf, Bool.and_eq_true, beq_iff_eq, ih, List.cons_append,
        List.cons.injEq]
      constructor
      · rintro ⟨rfl, r, rfl⟩; exact ⟨r, rfl, rfl⟩
      · rintro ⟨r, rfl, rfl⟩; exact ⟨rfl, r, rfl⟩

theorem takeWhile_append_all {α : Type} (p : α → Bool) (a : List α) (c : α) (t : List α)
    (ha : ∀ x ∈ a, p x = true) (hc : p c = false) :
    (a ++ c :: t).takeWhile p = a ∧ (a ++ c :: t).dropWhile p = c :: t := by
  induction a with
  | nil => simp [List.takeWhile, List.dropWhile, hc]
  | cons x xs ih =>
    have hx : p x = true := ha x (List.mem_cons_self _ _)
    have ihr := ih (fun y hy => ha y (List.mem_cons_of_mem _ hy))
    simp only [List.cons_append, List.takeWhile_cons, List.dropWhile_cons, hx, if_true]
    exact ⟨by rw [ihr.1], by rw [ihr.2]⟩

theorem decide_ne_slash {c : Char} (h : c ≠ '/') : decide (c ≠ '/') = true := by
  simp [h]

theorem seg1_decomp (a : Str) (more : Str) (ha : '/' ∉ a) :
    seg1 (a ++ '/' :: more) = a := by
  refine (takeWhile_append_all _ a '/' more ?_ ?_).1
  · intro x hx
    exact decide_ne_slash (fun hc => ha (hc ▸ hx))
  · simp

theorem rest1_decomp (a : Str) (more : Str) (ha : '/' ∉ a) :
    rest1 (a ++ '/' :: more) = more := by
  unfold rest1
  rw [(takeWhile_append_all _ a '/' more
    (fun x hx => decide_ne_slash (fun hc => ha (hc ▸ hx))) (by simp)).2]
  rfl

theorem sessionOf_of_shape_pre (sp f : Str) (h : SessShape sp) (hp : ∃ r, f = sp ++ r) :
    sessionOf f = sp := by
  obtain ⟨a, b, ha, hb, rfl⟩ := h
  obtain ⟨r, rfl⟩ := hp
  unfold sessionOf
  have h1 : seg1 (a ++ '/' :: (b ++ ['/']) ++ r) = a := by
    rw [List.append_assoc, List.cons_append]
    exact seg1_decomp a _ ha
  have h2 : rest1 (a ++ '/' :: (b ++ ['/']) ++ r) = (b ++ ['/']) ++ r := by
    rw [List.append_assoc, List.cons_append]
    exact rest1_decomp a _ ha
  rw [h1, h2]
  have h3 : seg1 (b ++ '/' :: r) = b := seg1_decomp b r hb
  rw [List.append_assoc, List.singleton_append, h3]

theorem sessShape_sessionOf (s : Str) : SessShape (sessionOf s) := by
  refine ⟨seg1 s, seg1 (rest1 s), ?_, ?_, rfl⟩
  · intro hc
    have hm := List.mem_takeWhile_imp hc
    simp at hm
  · intro hc
    have hm := List.mem_takeWhile_imp hc
    simp at hm

theorem sessionOf_idem (s : Str) : sessionOf (sessionOf s) = sessionOf s :=
  sessionOf_of_shape_pre _ _ (sessShape_sessionOf s) ⟨[], by simp⟩

theorem seg1_sessionOf (s : Str) : seg1 (sessionOf s) = seg1 s := by
  unfold sessionOf
  refine seg1_decomp (seg1 s) _ ?_
  intro hc
  have hm := List.mem_takeWhile_imp hc
  simp at hm

end StrLemmas

namespace StrLemmas

theorem chFor_eq_some (p : Char → Bool) (n : ℕ) (s r : Str) (h : chFor p n s = some r) :
    ∃ a : Str, s = a ++ r ∧ a.length = n ∧ ∀ c ∈ a, p c = true := by
  induction n generalizing s with
  | zero =>
    simp only [chFor, Option.some.injEq] at h
    exact ⟨[], by simp [h], rfl, by simp⟩
  | succ m ih =>
    cases s with
    | nil => simp [chFor] at h
    | cons c t =>
      by_cases hc : p c
      · simp only [chFor, if_pos hc] at h
        obtain ⟨a, rfl, hlen, hall⟩ := ih t h
        refine ⟨c :: a, rfl, by simp [hlen], ?_⟩
        intro x hx
        rcases List.mem_cons.mp hx with rfl | hx
        · exact hc
        · exact hall x hx
      · simp [chFor, hc] at h

theorem upperHex_ne_slash {c : Char} (h : upperHex c = true) : c ≠ '/' := by
  intro hc
  subst hc
  simp [upperHex, Char.isDigit, Char.le_def] at h

theorem isDig_ne_slash {c : Char} (h : isDig c = true) : c ≠ '/' := by
  intro hc
  subst hc
  simp [isDig, Char.isDigit, Char.le_def] at h

end StrLemmas

namespace StrLemmas

theorem expectCh_eq_some (c : Char) (s t : Str) : expectCh c s = some t ↔ s = c :: t := by
  cases s with
  | nil => simp [expectCh]
  | cons x xs =>
    by_cases hx : x = c
    · subst hx
      simp [expectCh]
    · simp only [expectCh, if_neg hx]
      constructor
      · intro h
        exact Option.noConfusion h
      · intro h
        injection h with h1 _
        exact absurd h1 hx

theorem chFor_exact (p : Char → Bool) (a : Str) :
    ∀ (_ : ∀ c ∈ a, p c = true) (t : Str), chFor p a.length (a ++ t) = some t := by
  induction a with
  | nil =>
    intro _ t
    simp [chFor]
  | cons x xs ih =>
    intro hall t
    simp only [List.length_cons, List.cons_append, chFor,
      if_pos (hall x (List.mem_cons_self _ _))]
    exact ih (fun c hc => hall c (List.mem_cons_of_mem _ hc)) t

theorem deviceNorm_decomp (s : Str) (h : ProcessBacklog.deviceNorm s = true) :
    ∃ a : Str, s = a ++ ['/'] ∧ a.length = 8 ∧ ∀ c ∈ a, upperHex c = true := by
  unfold ProcessBacklog.deviceNorm at h
  rw [decide_eq_true_eq, Option.bind_eq_some] at h
  obtain ⟨r, hr, hexp⟩ := h
  rw [expectCh_eq_some] at hexp
  obtain ⟨a, rfl, hlen, hall⟩ := chFor_eq_some _ _ _ _ hr
  rw [hexp]
  exact ⟨a, by simp, hlen, hall⟩

theorem deviceNorm_build (a : Str) (hlen : a.length = 8) (hall : ∀ c ∈ a, upperHex c = true) :
    ProcessBacklog.deviceNorm (a ++ ['/']) = true := by
  unfold ProcessBacklog.deviceNorm
  have h1 : chFor upperHex 8 (a ++ ['/']) = some ['/'] := by
    rw [← hlen]
    exact chFor_exact upperHex a hall ['/']
  rw [decide_eq_true_eq, h1]
  simp [expectCh]

theorem sessionNorm_decomp (s : Str) (h : ProcessBacklog.sessionNorm s = true) :
    ∃ a b : Str, s = a ++ '/' :: (b ++ ['/']) ∧ a.length = 8 ∧ b.length = 8 ∧
      (∀ c ∈ a, upperHex c = true) ∧ ∀ c ∈ b, isDig c = true := by
  unfold ProcessBacklog.sessionNorm at h
  rw [decide_eq_true_eq, Option.bind_eq_some] at h
  obtain ⟨r3, hr3, hexp3⟩ := h
  rw [Option.bind_eq_some] at hr3
  obtain ⟨r2, hr2, hdig⟩ := hr3
  rw [Option.bind_eq_some] at hr2
  obtain ⟨r1, hhex, hexp1⟩ := hr2
  rw [expectCh_eq_some] at hexp1 hexp3
  obtain ⟨a, rfl, hla, hha⟩ := chFor_eq_some _ _ _ _ hhex
  obtain ⟨b, hb, hlb, hhb⟩ := chFor_eq_some _ _ _ _ hdig
  rw [hexp3] at hb
  rw [hexp1, hb]
  exact ⟨a, b, by simp, hla, hlb, hha, hhb⟩

theorem sessionNorm_build (a b : Str) (hla : a.length = 8) (hlb : b.length = 8)
    (hha : ∀ c ∈ a, upperHex c = true) (hhb : ∀ c ∈ b, isDig c = true) :
    ProcessBacklog.sessionNorm (a ++ '/' :: (b ++ ['/'])) = true := by
  unfold ProcessBacklog.sessionNorm
  have h1 : chFor upperHex 8 (a ++ '/' :: (b ++ ['/'])) = some ('/' :: (b ++ ['/'])) := by
    rw [← hla]
    exact chFor_exact upperHex a hha ('/' :: (b ++ ['/']))
  have h2 : chFor isDig 8 (b ++ ['/']) = some ['/'] := by
    rw [← hlb]
    exact chFor_exact isDig b hhb ['/']
  rw [decide_eq_true_eq]
  simp [h1, h2, expectCh]

theorem sessionNorm_shape (s : Str) (h : ProcessBacklog.sessionNorm s = true) : SessShape s := by
  obtain ⟨a, b, rfl, _, _, hha, hhb⟩ := sessionNorm_decomp s h
  exact ⟨a, b, fun hc => upperHex_ne_slash (hha '/' hc) rfl,
    fun hc => isDig_ne_slash (hhb '/' hc) rfl, rfl⟩

theorem sessionKeyOf_spec (devPre name sk : Str)
    (hd : ProcessBacklog.deviceNorm devPre = true)
    (h : ProcessBacklog.sessionKeyOf devPre name = some sk) :
    ProcessBacklog.sessionNorm sk = true ∧ ∃ r, name = sk ++ r := by
  unfold ProcessBacklog.sessionKeyOf at h
  by_cases hp : devPre.isPrefixOf name
  · rw [if_pos hp] at h
    obtain ⟨r0, hr0⟩ := (isPrefixOf_iff_ex devPre name).mp hp
    have hdrop : name.drop devPre.length = r0 := by
      rw [hr0]
      simp
    rw [hdrop] at h
    cases hm : (chFor isDig 8 r0).bind (expectCh '/') with
    | none => rw [hm] at h; simp at h
    | some rest =>
      rw [hm] at h
      simp only [Option.some.injEq] at h
      rw [Option.bind_eq_some] at hm
      obtain ⟨r1, hdig, hexp⟩ := hm
      rw [expectCh_eq_some] at hexp
      obtain ⟨b, rfl, hlb, hhb⟩ := chFor_eq_some _ _ _ _ hdig
      obtain ⟨a, rfl, hla, hha⟩ := deviceNorm_decomp devPre hd
      have htake : (b ++ r1).take 8 = b := by
        rw [← hlb]
        simp
      rw [htake] at h
      constructor
      · rw [← h]
        have : a ++ ['/'] ++ (b ++ ['/']) = a ++ '/' :: (b ++ ['/']) := by simp
        rw [this]
        exact sessionNorm_build a b hla hlb hha hhb
      · refine ⟨rest, ?_⟩
        rw [hr0, ← h, hexp]
        simp
  · rw [if_neg hp] at h
    simp at h

end StrLemmas

namespace StrLemmas

theorem isSuffixOf_iff_ex {α : Type} [DecidableEq α] (a b : List α) :
    a.isSuffixOf b = true ↔ ∃ p, b = p ++ a := by
  unfold List.isSuffixOf
  rw [isPrefixOf_iff_ex]
  constructor
  · rintro ⟨r, hr⟩
    refine ⟨r.reverse, ?_⟩
    have := congrArg List.reverse hr
    simpa using this
  · rintro ⟨p, rfl⟩
    exact ⟨p.reverse, by simp⟩

theorem normalizePre_last_slash (s : Str) (h : s.getLast? = some '/') :
    ProcessBacklog.normalizePre s = s := by
  unfold ProcessBacklog.normalizePre
  by_cases h0 : s = []
  · rw [if_pos h0]
  · rw [if_neg h0]
    by_cases h1 : ProcessBacklog.is_likely_file_path s
    · rw [if_pos h1]
    · rw [if_neg h1, if_pos h]

theorem deviceNorm_getLast (s : Str) (h : ProcessBacklog.deviceNorm s = true) :
    s.getLast? = some '/' := by
  obtain ⟨a, rfl, _, _⟩ := deviceNorm_decomp s h
  simp

theorem sessionNorm_getLast (s : Str) (h : ProcessBacklog.sessionNorm s = true) :
    s.getLast? = some '/' := by
  obtain ⟨a, b, rfl, _, _, _, _⟩ := sessionNorm_decomp s h
  have : a ++ '/' :: (b ++ ['/']) = (a ++ '/' :: b) ++ ['/'] := by simp
  rw [this, List.getLast?_concat]

theorem splitFirstSlash (s : Str) (h : '/' ∈ s) : s = seg1 s ++ '/' :: rest1 s := by
  induction s with
  | nil => simp at h
  | cons c t ih =>
    by_cases hc : c = '/'
    · subst hc
      simp [seg1, rest1, List.takeWhile, List.dropWhile]
    · have ht : '/' ∈ t := by
        rcases List.mem_cons.mp h with hh | hh
        · exact absurd hh.symm hc
        · exact hh
      have hstep : seg1 (c :: t) = c :: seg1 t ∧ rest1 (c :: t) = rest1 t := by
        constructor
        · simp [seg1, List.takeWhile_cons, hc]
        · simp [rest1, List.dropWhile_cons, hc]
      rw [hstep.1, hstep.2, List.cons_append]
      exact congrArg (c :: ·) (ih ht)

theorem seg1_no_slash (s : Str) : '/' ∉ seg1 s := by
  intro hc
  have hm := List.mem_takeWhile_imp hc
  simp at hm

theorem count_ge_two_split (s : Str) (h : 2 ≤ s.count '/') :
    s = sessionOf s ++ (rest1 (rest1 s)) := by
  have h1 : '/' ∈ s := by
    by_contra hc
    rw [List.count_eq_zero_of_not_mem hc] at h
    omega
  have hsplit := splitFirstSlash s h1
  have hcnt : s.count '/' = (seg1 s).count '/' + ((rest1 s).count '/' + 1) := by
    have := congrArg (List.count '/') hsplit
    simpa [List.count_append, List.count_cons] using this
  have hseg : (seg1 s).count '/' = 0 := List.count_eq_zero_of_not_mem (seg1_no_slash s)
  have h2 : '/' ∈ rest1 s := by
    rw [hseg] at hcnt
    have : 1 ≤ (rest1 s).count '/' := by omega
    exact List.count_pos_iff.mp this
  have hsplit2 := splitFirstSlash (rest1 s) h2
  calc s = seg1 s ++ '/' :: rest1 s := hsplit
    _ = seg1 s ++ '/' :: (seg1 (rest1 s) ++ '/' :: rest1 (rest1 s)) := by rw [← hsplit2]
    _ = sessionOf s ++ rest1 (rest1 s) := by
        unfold sessionOf
        simp

theorem slash_mem_of_shape_pre (sp f : Str) (h : SessShape sp) (hp : ∃ r, f = sp ++ r) :
    '/' ∈ f := by
  obtain ⟨a, b, _, _, rfl⟩ := h
  obtain ⟨r, rfl⟩ := hp
  simp

theorem seg1_eq_of_sessionOf_eq (f g : Str) (h : sessionOf f = sessionOf g) :
    seg1 f = seg1 g := by
  have h1 := seg1_sessionOf f
  have h2 := seg1_sessionOf g
  rw [← h1, ← h2, h]

end StrLemmas

namespace ListLemmas

theorem foldl_invariant {σ α : Type} (P : σ → Prop) (f : σ → α → σ) (l : List α) (s : σ)
    (h0 : P s) (hstep : ∀ s' a, a ∈ l → P s' → P (f s' a)) : P (l.foldl f s) := by
  induction l generalizing s with
  | nil => exact h0
  | cons a t ih =>
    exact ih (f s a) (hstep s a (List.mem_cons_self _ _) h0)
      (fun s' x hx hp => hstep s' x (List.mem_cons_of_mem _ hx) hp)

end ListLemmas

namespace PBLemmas

open ProcessBacklog ListLemmas StrLemmas

theorem mem_list_store (store : List Str) (pre f : Str) (h : f ∈ list_store store pre) :
    f ∈ store ∧ ∃ r, f = pre ++ r := by
  unfold list_store at h
  have := List.of_mem_filter h
  exact ⟨List.mem_of_mem_filter h, (isPrefixOf_iff_ex pre f).mp this⟩

theorem mem_list_files_in_session (store : List Str) (sp0 f : Str)
    (h : f ∈ list_files_in_session store sp0) :
    has_valid_extension f = true ∧ ∃ r, f = normalizePre sp0 ++ r := by
  unfold list_files_in_session at h
  rw [sortStr_mem] at h
  refine ⟨List.of_mem_filter h, ?_⟩
  exact (mem_list_store store _ f (List.mem_of_mem_filter h)).2

theorem list_sessions_obs_spec (store : List Str) (dev : Str) :
    (alKeys (list_sessions store dev).2).Nodup ∧
    ∀ kv ∈ (list_sessions store dev).2, ∀ f ∈ kv.2,
      sessionKeyOf (normalizePre dev) f = some kv.1 := by
  unfold list_sessions
  set devPre := normalizePre dev with hdev
  have : ∀ acc : List Str × List (Str × List Str),
      ((alKeys acc.2).Nodup ∧
        ∀ kv ∈ acc.2, ∀ f ∈ kv.2, sessionKeyOf devPre f = some kv.1) →
      ∀ name, ((alKeys (listSessionsStep devPre acc name).2).Nodup ∧
        ∀ kv ∈ (listSessionsStep devPre acc name).2, ∀ f ∈ kv.2,
          sessionKeyOf devPre f = some kv.1) := by
    rintro acc ⟨hnd, hspec⟩ name
    unfold listSessionsStep
    cases hk : sessionKeyOf devPre name with
    | none => exact ⟨hnd, hspec⟩
    | some sk =>
      simp only
      set obs1 := if (alGet sk acc.2).isSome then acc.2 else alSet sk [] acc.2 with hobs1
      have hnd1 : (alKeys obs1).Nodup := by
        rw [hobs1]
        by_cases hs : (alGet sk acc.2).isSome
        · rwa [if_pos hs]
        · rw [if_neg hs]
          exact alKeys_nodup_alSet _ _ _ hnd
      have hspec1 : ∀ kv ∈ obs1, ∀ f ∈ kv.2, sessionKeyOf devPre f = some kv.1 := by
        rw [hobs1]
        by_cases hs : (alGet sk acc.2).isSome
        · rw [if_pos hs]
          exact hspec
        · rw [if_neg hs]
          intro kv hkv f hf
          rcases mem_alSet _ _ _ hnd kv hkv with rfl | ⟨hm, _⟩
          · simp at hf
          · exact hspec kv hm f hf
      by_cases hv : has_valid_extension name
      · rw [if_pos hv]
        constructor
        · exact alKeys_nodup_alSet _ _ _ hnd1
        · intro kv hkv f hf
          rcases mem_alSet _ _ _ hnd1 kv hkv with rfl | ⟨hm, _⟩
          · simp only at hf
            rcases List.mem_append.mp hf with hf | hf
            · cases hg : alGet sk obs1 with
              | none => rw [hg] at hf; simp at hf
              | some v =>
                rw [hg] at hf
                exact hspec1 (sk, v) (alGet_mem _ _ _ hg) f hf
            · rw [List.mem_singleton] at hf
              rw [hf, hk]
          · exact hspec1 kv hm f hf
      · rw [if_neg hv]
        exact ⟨hnd1, hspec1⟩
  have hfold := ListLemmas.foldl_invariant
    (fun acc : List Str × List (Str × List Str) =>
      (alKeys acc.2).Nodup ∧ ∀ kv ∈ acc.2, ∀ f ∈ kv.2, sessionKeyOf devPre f = some kv.1)
    (listSessionsStep devPre) (list_store store devPre) ([], [])
    (by constructor <;> simp [alKeys])
    (fun s' a _ hp => this s' hp a)
  exact hfold

end PBLemmas

namespace PBLemmas

open ProcessBacklog ListLemmas StrLemmas

theorem headD_mem {α : Type} (l : List α) (d : α) (h : l ≠ []) : l.headD d ∈ l := by
  cases l with
  | nil => exact absurd rfl h
  | cons a t => exact List.mem_cons_self _ _

theorem batchOK_sess_eq (sp : Str) (b : List Str) (h : BatchOK sp b) : batchSess b = sp := by
  obtain ⟨hne, _, hall⟩ := h
  exact (hall _ (headD_mem b [] hne)).1

theorem deviceSessionStep_preserve (obs : List (Str × List Str)) (devPre : Str)
    (hobs : ∀ kv ∈ obs, ∀ f ∈ kv.2, sessionKeyOf devPre f = some kv.1)
    (hdev : deviceNorm devPre = true)
    (st : PBSt) (hinv : PBInv st) (session : Str) :
    PBInv (deviceSessionStep obs st session) ∧
    (∀ x ∈ st.processed, x ∈ (deviceSessionStep obs st session).processed) ∧
    (deviceSessionStep obs st session).result = st.result := by
  obtain ⟨hR1, hR2, hR3, hS1, hS2, hS3⟩ := hinv
  unfold deviceSessionStep
  by_cases hmem : session ∈ st.processed
  · rw [if_pos hmem]
    exact ⟨⟨hR1, hR2, hR3, hS1, hS2, hS3⟩, fun x hx => hx, rfl⟩
  · rw [if_neg hmem]
    dsimp only
    have hproc : ∀ x ∈ st.processed, x ∈ st.processed ++ [session] :=
      fun x hx => List.mem_append.mpr (Or.inl hx)
    have hR3' : ∀ b ∈ st.result, batchSess b ∈ st.processed ++ [session] :=
      fun b hb => hproc _ (hR3 b hb)
    cases hg : alGet session obs with
    | none =>
      simp only [hg, Option.getD_none, ne_eq, not_true_eq_false, if_false]
      exact ⟨⟨hR1, hR2, hR3', hS1, hS2, hS3⟩, hproc, trivial⟩
    | some v =>
      simp only [hg, Option.getD_some]
      by_cases hfe : v = []
      · subst hfe
        simp only [ne_eq, not_true_eq_false, if_false]
        exact ⟨⟨hR1, hR2, hR3', hS1, hS2, hS3⟩, hproc, trivial⟩
      · rw [if_pos (by exact hfe)]
        have hfilesOK : ∀ f ∈ v, sessionOf f = session ∧ ∃ r, f = session ++ r := by
          intro f hf
          have hkey := hobs (session, v) (alGet_mem _ _ _ hg) f hf
          obtain ⟨hn, hpre⟩ := sessionKeyOf_spec devPre f session hdev hkey
          exact ⟨sessionOf_of_shape_pre _ _ (sessionNorm_shape _ hn) hpre, hpre⟩
        refine ⟨⟨hR1, hR2, hR3', ?_, ?_, ?_⟩, hproc, trivial⟩
        · intro kv hkv f hf
          rcases mem_alSet _ _ _ hS2 kv hkv with rfl | ⟨hm, _⟩
          · exact hfilesOK f hf
          · exact hS1 kv hm f hf
        · exact alKeys_nodup_alSet _ _ _ hS2
        · intro kv hkv b hb
          rcases mem_alSet _ _ _ hS2 kv hkv with rfl | ⟨hm, _⟩
          · intro hc
            apply hmem
            have hmem2 := hR3 b hb
            rw [hc] at hmem2
            exact hmem2
          · exact hS3 kv hm b hb

end PBLemmas

namespace PBLemmas

open ProcessBacklog ListLemmas StrLemmas

theorem fileItemStep_preserve (st : PBSt) (item : Str) (hinv : PBInv st) :
    PBInv (fileItemStep st item) ∧ (fileItemStep st item).processed = st.processed := by
  obtain ⟨hR1, hR2, hR3, hS1, hS2, hS3⟩ := hinv
  unfold fileItemStep
  by_cases hcnt : 2 ≤ item.count '/'
  · rw [if_pos hcnt]
    dsimp only
    have hshape : SessShape (sessionOf item) := sessShape_sessionOf item
    have hitem : item = sessionOf item ++ rest1 (rest1 item) := count_ge_two_split item hcnt
    -- the three ways the session key is initialized
    have hstage : ∀ st' : PBSt,
        PBInv st' → st'.processed = st.processed →
        (alGet (sessionOf item) st'.session_lists).isSome = true →
        PBInv
          (if item ∈ (alGet (sessionOf item) st'.session_lists).getD [] then st'
           else { st' with
              session_lists := alSet (sessionOf item)
                (((alGet (sessionOf item) st'.session_lists).getD []) ++ [item])
                st'.session_lists }) ∧
        (if item ∈ (alGet (sessionOf item) st'.session_lists).getD [] then st'
           else { st' with
              session_lists := alSet (sessionOf item)
                (((alGet (sessionOf item) st'.session_lists).getD []) ++ [item])
                st'.session_lists }).processed = st.processed := by
      rintro st' ⟨hR1', hR2', hR3', hS1', hS2', hS3'⟩ hpr hsome
      by_cases hin : item ∈ (alGet (sessionOf item) st'.session_lists).getD []
      · rw [if_pos hin]
        exact ⟨⟨hR1', hR2', hR3', hS1', hS2', hS3'⟩, hpr⟩
      · rw [if_neg hin]
        cases hg : alGet (sessionOf item) st'.session_lists with
        | none => rw [hg] at hsome; simp at hsome
        | some cur =>
          have hcur : ∀ f ∈ cur, sessionOf f = sessionOf item ∧ ∃ r, f = sessionOf item ++ r :=
            hS1' _ (alGet_mem _ _ _ hg) 
          refine ⟨⟨hR1', hR2', hR3', ?_, ?_, ?_⟩, hpr⟩
          · intro kv hkv f hf
            rcases mem_alSet _ _ _ hS2' kv hkv with rfl | ⟨hm, _⟩
            · simp only [hg, Option.getD_some] at hf
              rcases List.mem_append.mp hf with hf | hf
              · exact hcur f hf
              · rw [List.mem_singleton] at hf
                rw [hf]
                exact ⟨rfl, rest1 (rest1 item), hitem⟩
            · exact hS1' kv hm f hf
          · exact alKeys_nodup_alSet _ _ _ hS2'
          · intro kv hkv b hb
            rcases mem_alSet _ _ _ hS2' kv hkv with rfl | ⟨hm, _⟩
            · exact hS3' (sessionOf item, cur) (alGet_mem _ _ _ hg) b hb
            · exact hS3' kv hm b hb
    by_cases hpresent : (alGet (sessionOf item) st.session_lists).isSome
    · rw [if_pos hpresent]
      exact hstage st ⟨hR1, hR2, hR3, hS1, hS2, hS3⟩ rfl hpresent
    · rw [if_neg hpresent]
      have hnokey : sessionOf item ∉ alKeys st.session_lists := by
        intro hc
        exact hpresent ((alGet_isSome_iff _ _).mpr hc)
      by_cases hproc : sessionOf item ∈ st.processed
      · rw [if_pos hproc]
        cases hpop : popFirst
            (fun fl => !fl.isEmpty && (sessionOf item).isPrefixOf (fl.headD [])) st.result with
        | some flrest =>
          obtain ⟨hpfl, l1, l2, hresult, hrest, hl1⟩ := popFirst_eq_some _ _ _ _ hpop
          have hflmem : flrest.1 ∈ st.result := by
            rw [hresult]
            exact List.mem_append.mpr (Or.inr (List.mem_cons_self _ _))
          have hflOK := hR1 _ hflmem
          have hflne : flrest.1 ≠ [] := by
            intro hc
            rw [hc] at hpfl
            simp at hpfl
          have hflpre : ∃ r, flrest.1.headD [] = sessionOf item ++ r := by
            rw [Bool.and_eq_true] at hpfl
            exact (isPrefixOf_iff_ex _ _).mp hpfl.2
          have hflsess : batchSess flrest.1 = sessionOf item :=
            sessionOf_of_shape_pre _ _ hshape hflpre
          have hrestsub : flrest.2.Sublist st.result := by
            rw [hrest, hresult]
            refine List.Sublist.append (List.Sublist.refl l1) ?_
            exact List.sublist_cons_self _ _
          have hrestmem : ∀ b ∈ flrest.2, b ∈ st.result := fun b hb => hrestsub.mem hb
          have hmapsub : (flrest.2.map batchSess).Sublist (st.result.map batchSess) :=
            List.Sublist.map _ hrestsub
          have hsessnot : batchSess flrest.1 ∉ flrest.2.map batchSess := by
            intro hc
            have hmap : st.result.map batchSess =
                l1.map batchSess ++ batchSess flrest.1 :: l2.map batchSess := by
              rw [hresult]
              simp
            have hnd := hR2
            rw [hmap] at hnd
            have hnd2 := (List.nodup_middle).mp hnd
            rw [List.nodup_cons] at hnd2
            rw [hrest, List.map_append] at hc
            exact hnd2.1 hc
          refine hstage
            { st with result := flrest.2,
                      session_lists := alSet (sessionOf item) flrest.1 st.session_lists }
            ⟨?_, ?_, ?_, ?_, ?_, ?_⟩ rfl ?_
          · intro b hb
            exact hR1 b (hrestmem b hb)
          · exact List.Sublist.nodup hmapsub hR2
          · intro b hb
            exact hR3 b (hrestmem b hb)
          · intro kv hkv f hf
            rcases mem_alSet _ _ _ hS2 kv hkv with rfl | ⟨hm, _⟩
            · have h2 := hflOK.2.2 f hf
              rw [hflsess] at h2
              exact h2
            · exact hS1 kv hm f hf
          · exact alKeys_nodup_alSet _ _ _ hS2
          · intro kv hkv b hb
            rcases mem_alSet _ _ _ hS2 kv hkv with rfl | ⟨hm, _⟩
            · intro hc
              apply hsessnot
              rw [hflsess]
              have hc' : batchSess b = sessionOf item := hc
              rw [← hc']
              exact List.mem_map.mpr ⟨b, hb, rfl⟩
            · exact hS3 kv hm b (hrestmem b hb)
          · rw [alGet_alSet_self]
            rfl
        | none =>
          have hnone := (popFirst_eq_none _ _).mp hpop
          have hnob : ∀ b ∈ st.result, batchSess b ≠ sessionOf item := by
            intro b hb hc
            have hbOK := hR1 b hb
            have hbne := hbOK.1
            have hbpre : ∃ r, b.headD [] = sessionOf item ++ r := by
              obtain ⟨_, _, hall⟩ := hbOK
              obtain ⟨hsf, r, hr⟩ := hall _ (headD_mem b [] hbne)
              exact ⟨r, by rw [hr, hc]⟩
            have := hnone b hb
            rw [Bool.and_eq_false_iff] at this
            rcases this with hthis | hthis
            · rw [Bool.not_eq_false', List.isEmpty_iff] at hthis
              exact hbne hthis
            · rw [(isPrefixOf_iff_ex _ _).mpr hbpre] at hthis
              exact Bool.noConfusion hthis
          refine hstage
            { st with session_lists := alSet (sessionOf item) [] st.session_lists }
            ⟨hR1, hR2, hR3, ?_, ?_, ?_⟩ rfl ?_
          · intro kv hkv f hf
            rcases mem_alSet _ _ _ hS2 kv hkv with rfl | ⟨hm, _⟩
            · simp at hf
            · exact hS1 kv hm f hf
          · exact alKeys_nodup_alSet _ _ _ hS2
          · intro kv hkv b hb
            rcases mem_alSet _ _ _ hS2 kv hkv with rfl | ⟨hm, _⟩
            · exact hnob b hb
            · exact hS3 kv hm b hb
          · rw [alGet_alSet_self]
            rfl
      · rw [if_neg hproc]
        refine hstage
          { st with session_lists := alSet (sessionOf item) [] st.session_lists }
          ⟨hR1, hR2, hR3, ?_, ?_, ?_⟩ rfl ?_
        · intro kv hkv f hf
          rcases mem_alSet _ _ _ hS2 kv hkv with rfl | ⟨hm, _⟩
          · simp at hf
          · exact hS1 kv hm f hf
        · exact alKeys_nodup_alSet _ _ _ hS2
        · intro kv hkv b hb
          rcases mem_alSet _ _ _ hS2 kv hkv with rfl | ⟨hm, _⟩
          · intro hc
            apply hproc
            have hmem2 := hR3 b hb
            rw [hc] at hmem2
            exact hmem2
          · exact hS3 kv hm b hb
        · rw [alGet_alSet_self]
          rfl
  · rw [if_neg hcnt]
    exact ⟨⟨hR1, hR2, hR3, hS1, hS2, hS3⟩, rfl⟩

end PBLemmas

namespace PBLemmas

open ProcessBacklog ListLemmas StrLemmas

theorem process_item_preserve (store : List Str) (st : PBSt) (it0 : Str) (hinv : PBInv st) :
    PBInv (process_item store st it0) ∧
    ∀ x ∈ st.processed, x ∈ (process_item store st it0).processed := by
  unfold process_item
  dsimp only
  set item := if it0 ≠ [] then normalizePre it0 else it0 with hit
  by_cases hdev : deviceNorm item
  · rw [if_pos hdev]
    have hlast : item.getLast? = some '/' := deviceNorm_getLast item hdev
    have hnorm : normalizePre item = item := normalizePre_last_slash item hlast
    have hobs := list_sessions_obs_spec store item
    rw [hnorm] at hobs
    have hdevn : deviceNorm (normalizePre item) = true := by rw [hnorm]; exact hdev
    rw [hnorm] at hdevn
    have hstep := fun (s' : PBSt) (hp : PBInv s' ∧ ∀ x ∈ st.processed, x ∈ s'.processed)
        (sess : Str) =>
      deviceSessionStep_preserve (list_sessions store item).2 item hobs.2 hdevn s' hp.1 sess
    refine foldl_invariant
      (fun s' => PBInv s' ∧ ∀ x ∈ st.processed, x ∈ s'.processed)
      (deviceSessionStep (list_sessions store item).2) (list_sessions store item).1 st
      ⟨hinv, fun x hx => hx⟩ ?_
    intro s' a _ hp
    obtain ⟨hinv', hmono', _⟩ := hstep s' hp a
    exact ⟨hinv', fun x hx => hmono' x (hp.2 x hx)⟩
  · rw [if_neg hdev]
    by_cases hsess : sessionNorm item
    · rw [if_pos hsess]
      by_cases hproc : item ∈ st.processed
      · rw [if_pos hproc]
        exact ⟨hinv, fun x hx => hx⟩
      · rw [if_neg hproc]
        obtain ⟨hR1, hR2, hR3, hS1, hS2, hS3⟩ := hinv
        have hmono : ∀ x ∈ st.processed, x ∈ st.processed ++ [item] :=
          fun x hx => List.mem_append.mpr (Or.inl hx)
        have hR3' : ∀ b ∈ st.result, batchSess b ∈ st.processed ++ [item] :=
          fun b hb => hmono _ (hR3 b hb)
        by_cases hge : (alGet item st.session_lists).getD [] ≠ []
        · rw [if_pos hge]
          exact ⟨⟨hR1, hR2, hR3', hS1, hS2, hS3⟩, hmono⟩
        · rw [if_neg hge]
          by_cases hfe : list_files_in_session store item ≠ []
          · rw [if_pos hfe]
            have hlast : item.getLast? = some '/' := sessionNorm_getLast item hsess
            have hnorm : normalizePre item = item := normalizePre_last_slash item hlast
            have hfOK : ∀ f ∈ list_files_in_session store item,
                sessionOf f = item ∧ ∃ r, f = item ++ r := by
              intro f hf
              obtain ⟨_, r, hr⟩ := mem_list_files_in_session store item f hf
              rw [hnorm] at hr
              exact ⟨sessionOf_of_shape_pre _ _ (sessionNorm_shape _ hsess) ⟨r, hr⟩, r, hr⟩
            refine ⟨⟨hR1, hR2, hR3', ?_, ?_, ?_⟩, hmono⟩
            · intro kv hkv f hf
              rcases mem_alSet _ _ _ hS2 kv hkv with rfl | ⟨hm, _⟩
              · exact hfOK f hf
              · exact hS1 kv hm f hf
            · exact alKeys_nodup_alSet _ _ _ hS2
            · intro kv hkv b hb
              rcases mem_alSet _ _ _ hS2 kv hkv with rfl | ⟨hm, _⟩
              · intro hc
                apply hproc
                have hmem2 := hR3 b hb
                rw [hc] at hmem2
                exact hmem2
              · exact hS3 kv hm b hb
          · rw [if_neg hfe]
            exact ⟨⟨hR1, hR2, hR3', hS1, hS2, hS3⟩, hmono⟩
    · rw [if_neg hsess]
      by_cases hval : has_valid_extension item
      · rw [if_pos hval]
        obtain ⟨hinv', hpr⟩ := fileItemStep_preserve st item hinv
        rw [hpr]
        exact ⟨hinv', fun x hx => hx⟩
      · rw [if_neg hval]
        exact ⟨hinv, fun x hx => hx⟩

theorem process_entry_list_preserve (store : List Str) (st : PBSt) (el : List Str)
    (hinv : PBInv st) : PBInv (process_entry_list store st el) := by
  unfold process_entry_list
  dsimp only
  have h0 : PBInv { st with session_lists := [] } := by
    obtain ⟨hR1, hR2, hR3, _, _, _⟩ := hinv
    refine ⟨hR1, hR2, hR3, ?_, ?_, ?_⟩ <;> simp [alKeys]
  have hfold : PBInv (el.foldl (process_item store) { st with session_lists := [] }) :=
    foldl_invariant PBInv (process_item store) el _ h0
      (fun s' a _ hp => (process_item_preserve store s' a hp).1)
  set stF := el.foldl (process_item store) { st with session_lists := [] } with hstF
  obtain ⟨hR1, hR2, hR3, hS1, hS2, hS3⟩ := hfold
  have hnewOK : ∀ kv ∈ stF.session_lists.filter (fun kv => kv.2 ≠ []),
      BatchOK kv.1 (dedupFirst kv.2) := by
    intro kv hkv
    have hm := List.mem_of_mem_filter hkv
    have hne : kv.2 ≠ [] := by
      have := List.of_mem_filter hkv
      simpa using this
    refine ⟨dedupFirst_ne_nil _ hne, dedupFirst_nodup _, ?_⟩
    intro f hf
    exact hS1 kv hm f ((dedupFirst_mem _ _).mp hf)
  have hnewSess : ∀ kv ∈ stF.session_lists.filter (fun kv => kv.2 ≠ []),
      batchSess (dedupFirst kv.2) = kv.1 := by
    intro kv hkv
    exact batchOK_sess_eq _ _ (hnewOK kv hkv)
  refine ⟨?_, ?_, ?_, ?_, ?_, ?_⟩
  · intro b hb
    rcases List.mem_append.mp hb with hb | hb
    · exact hR1 b hb
    · obtain ⟨kv, hkv, rfl⟩ := List.mem_map.mp hb
      rw [hnewSess kv hkv]
      exact hnewOK kv hkv
  · rw [List.map_append]
    have hmape : (stF.session_lists.filter (fun kv => kv.2 ≠ [])).map
        (fun kv => batchSess (dedupFirst kv.2)) =
        (stF.session_lists.filter (fun kv => kv.2 ≠ [])).map (fun kv => kv.1) := by
      apply List.map_congr_left
      intro kv hkv
      exact hnewSess kv hkv
    rw [List.map_map]
    have hcomp : (batchSess ∘ fun kv => dedupFirst kv.2) =
        fun kv : Str × List Str => batchSess (dedupFirst kv.2) := rfl
    rw [hcomp, hmape]
    rw [List.nodup_append]
    refine ⟨hR2, ?_, ?_⟩
    · have hsub : ((stF.session_lists.filter (fun kv => kv.2 ≠ [])).map
          (fun kv => kv.1)).Sublist (alKeys stF.session_lists) :=
        List.Sublist.map _ (List.filter_sublist _)
      exact List.Sublist.nodup hsub hS2
    · intro x hx hx2
      obtain ⟨b, hb, rfl⟩ := List.mem_map.mp hx
      obtain ⟨kv, hkv, hkv2⟩ := List.mem_map.mp hx2
      exact hS3 kv (List.mem_of_mem_filter hkv) b hb hkv2.symm
  · intro b hb
    rcases List.mem_append.mp hb with hb | hb
    · exact List.mem_append.mpr (Or.inl (hR3 b hb))
    · obtain ⟨kv, hkv, rfl⟩ := List.mem_map.mp hb
      refine List.mem_append.mpr (Or.inr ?_)
      rw [hnewSess kv hkv]
      exact List.mem_map.mpr ⟨kv, List.mem_of_mem_filter hkv, rfl⟩
  · intro kv hkv
    simp at hkv
  · simp [alKeys]
  · intro kv hkv
    simp at hkv

theorem process_backlog_spec (store : List Str) (refs : List (List Str)) :
    (∀ b ∈ process_backlog store refs, BatchOK (batchSess b) b) ∧
    ((process_backlog store refs).map batchSess).Nodup := by
  unfold process_backlog
  have hinv : PBInv (refs.foldl (process_entry_list store) ⟨[], [], []⟩) := by
    refine foldl_invariant PBInv (process_entry_list store) refs ⟨[], [], []⟩ ?_ ?_
    · refine ⟨?_, ?_, ?_, ?_, ?_, ?_⟩ <;> simp [alKeys]
    · intro s' a _ hp
      exact process_entry_list_preserve store s' a hp
  exact ⟨hinv.1, hinv.2.1⟩

theorem process_backlog_flatten_nodup (store : List Str) (refs : List (List Str)) :
    ((process_backlog store refs).flatten).Nodup := by
  obtain ⟨hOK, hnd⟩ := process_backlog_spec store refs
  rw [List.nodup_flatten]
  refine ⟨fun b hb => (hOK b hb).2.1, ?_⟩
  have hpw : List.Pairwise (fun b1 b2 => batchSess b1 ≠ batchSess b2)
      (process_backlog store refs) := List.pairwise_map.mp hnd
  refine List.Pairwise.imp_of_mem ?_ hpw
  intro b1 b2 hb1 hb2 hne f hf1 hf2
  have h1 := (hOK b1 hb1).2.2 f hf1
  have h2 := (hOK b2 hb2).2.2 f hf2
  exact hne (by rw [← h1.1, ← h2.1])

end PBLemmas

namespace OptLemmas

open ProcessBacklog ListLemmas StrLemmas

theorem chunksF_flatten {α : Type} (k : ℕ) (hk : 1 ≤ k) :
    ∀ (fuel : ℕ) (l : List α), l.length ≤ fuel → (chunksF k fuel l).flatten = l := by
  intro fuel
  induction fuel with
  | zero =>
    intro l hl
    rw [Nat.le_zero, List.length_eq_zero] at hl
    subst hl
    rfl
  | succ m ih =>
    intro l hl
    cases l with
    | nil => rfl
    | cons a t =>
      show (List.take k (a :: t) :: chunksF k m (List.drop k (a :: t))).flatten = a :: t
      rw [List.flatten_cons, ih (List.drop k (a :: t)) ?_, List.take_append_drop]
      have : (List.drop k (a :: t)).length = (a :: t).length - k := List.length_drop k _
      rw [this]
      simp only [List.length_cons] at hl ⊢
      omega

theorem chunks_flatten {α : Type} (k : ℕ) (hk : 1 ≤ k) (l : List α) :
    (chunks k l).flatten = l :=
  chunksF_flatten k hk l.length l (le_refl _)

theorem mem_chunksF_length {α : Type} (k fuel : ℕ) (l : List α) (c : List α)
    (hc : c ∈ chunksF k fuel l) : c.length ≤ k := by
  induction fuel generalizing l with
  | zero => simp [chunksF] at hc
  | succ m ih =>
    cases l with
    | nil => simp [chunksF] at hc
    | cons a t =>
      rw [show chunksF k (m + 1) (a :: t) =
        List.take k (a :: t) :: chunksF k m (List.drop k (a :: t)) from rfl] at hc
      rcases List.mem_cons.mp hc with rfl | hc
      · simp only [List.length_take]
        omega
      · exact ih _ hc

theorem mem_chunksF_subset {α : Type} (k fuel : ℕ) (l : List α) (c : List α)
    (hc : c ∈ chunksF k fuel l) : ∀ x ∈ c, x ∈ l := by
  induction fuel generalizing l with
  | zero => simp [chunksF] at hc
  | succ m ih =>
    cases l with
    | nil => simp [chunksF] at hc
    | cons a t =>
      rw [show chunksF k (m + 1) (a :: t) =
        List.take k (a :: t) :: chunksF k m (List.drop k (a :: t)) from rfl] at hc
      rcases List.mem_cons.mp hc with rfl | hc
      · exact fun x hx => List.mem_of_mem_take hx
      · exact fun x hx => List.mem_of_mem_drop (ih _ hc x hx)

theorem alSet_snd_append {β : Type} (k : Str) (v : List β) (acc : List (Str × List β))
    (hnone : alGet k acc = none) :
    (alSet k v acc).map Prod.snd = acc.map Prod.snd ++ [v] := by
  induction acc with
  | nil => simp [alSet]
  | cons kv t ih =>
    by_cases hk : kv.1 = k
    · rw [alGet, if_pos hk] at hnone
      exact Option.noConfusion hnone
    · rw [alGet, if_neg hk] at hnone
      simp only [alSet, if_neg hk, List.map_cons, ih hnone, List.cons_append]

theorem alSet_snd_flatten_perm {β : Type} [DecidableEq β] (k : Str) (v : List β)
    (acc : List (Str × List β)) (old : List β) (hget : alGet k acc = some old) :
    List.Perm (((alSet k v acc).map Prod.snd).flatten ++ old)
      ((acc.map Prod.snd).flatten ++ v) := by
  induction acc with
  | nil => simp [alGet] at hget
  | cons kv t ih =>
    by_cases hk : kv.1 = k
    · rw [alGet, if_pos hk, Option.some.injEq] at hget
      subst hget
      simp only [alSet, if_pos hk, List.map_cons, List.flatten_cons]
      rw [List.perm_iff_count]
      intro a
      simp only [List.count_append]
      omega
    · rw [alGet, if_neg hk] at hget
      simp only [alSet, if_neg hk, List.map_cons, List.flatten_cons]
      rw [List.perm_iff_count]
      intro a
      have hcnt := (ih hget).count_eq a
      simp only [List.count_append] at hcnt ⊢
      omega

end OptLemmas

namespace OptLemmas

open ProcessBacklog ListLemmas StrLemmas

theorem groupStep_device (acc : List (Str × List Str)) (b : List Str) (hb : b ≠ [])
    (d : Str) (hd : deviceOf (b.headD []) = some d) (hdne : d ≠ []) :
    groupStep acc b = alSet d (((alGet d acc).getD []) ++ b) acc := by
  unfold groupStep
  rw [if_neg hb, hd]
  dsimp only
  rw [if_pos hdne]

theorem groupStep_flatten_perm (acc : List (Str × List Str)) (b : List Str) (hb : b ≠ [])
    (d : Str) (hd : deviceOf (b.headD []) = some d) (hdne : d ≠ []) :
    List.Perm (((groupStep acc b).map Prod.snd).flatten) ((acc.map Prod.snd).flatten ++ b) := by
  rw [groupStep_device acc b hb d hd hdne]
  cases hg : alGet d acc with
  | none =>
    simp only [Option.getD_none, List.nil_append]
    rw [alSet_snd_append d b acc hg, List.flatten_append]
    simp
  | some old =>
    simp only [Option.getD_some]
    have hperm := alSet_snd_flatten_perm d (old ++ b) acc old hg
    have h2 : List.Perm ((acc.map Prod.snd).flatten ++ (old ++ b))
        (((acc.map Prod.snd).flatten ++ b) ++ old) := by
      have ha : List.Perm (old ++ b) (b ++ old) := List.perm_append_comm
      have hb2 := List.Perm.append_left ((acc.map Prod.snd).flatten) ha
      refine hb2.trans ?_
      rw [← List.append_assoc]
    exact (List.perm_append_right_iff old).mp (hperm.trans h2)

theorem flatten_sublist {α : Type} {s t : List (List α)} (h : s.Sublist t) :
    s.flatten.Sublist t.flatten := by
  induction h with
  | slnil => exact List.Sublist.refl _
  | cons a _ ih =>
    rw [List.flatten_cons]
    exact ih.trans (List.sublist_append_right _ _)
  | cons₂ a _ ih =>
    rw [List.flatten_cons, List.flatten_cons]
    exact List.Sublist.append (List.Sublist.refl a) ih

theorem groupFold_spec (pb : List (List Str)) :
    ∀ acc : List (Str × List Str),
    (alKeys acc).Nodup →
    (∀ kv ∈ acc, ∀ f ∈ kv.2, deviceOf f = some kv.1) →
    (∀ b ∈ pb, ∀ f ∈ b, deviceOf f = deviceOf (b.headD [])) →
    (∀ b ∈ pb, b ≠ [] → ∃ d, d ≠ [] ∧ deviceOf (b.headD []) = some d) →
    ((acc.map Prod.snd).flatten ++ pb.flatten).Nodup →
    (alKeys (pb.foldl groupStep acc)).Nodup ∧
    (∀ kv ∈ pb.foldl groupStep acc, ∀ f ∈ kv.2, deviceOf f = some kv.1) ∧
    (((pb.foldl groupStep acc).map Prod.snd).flatten).Nodup := by
  induction pb with
  | nil =>
    intro acc hk hI _ _ hnd
    refine ⟨hk, hI, ?_⟩
    simpa using List.Nodup.sublist (List.sublist_append_left _ _) hnd
  | cons b rest ih =>
    intro acc hk hI hOK hdev hnd
    by_cases hb : b = []
    · subst hb
      rw [List.foldl_cons]
      show _ ∧ _ ∧ _
      have hstep : groupStep acc [] = acc := by
        unfold groupStep
        rw [if_pos rfl]
      rw [hstep]
      refine ih acc hk hI (fun b' hb' => hOK b' (List.mem_cons_of_mem _ hb'))
        (fun b' hb' => hdev b' (List.mem_cons_of_mem _ hb')) ?_
      simpa using hnd
    · obtain ⟨d, hdne, hd⟩ := hdev b (List.mem_cons_self _ _) hb
      have hstep := groupStep_device acc b hb d hd hdne
      have hperm := groupStep_flatten_perm acc b hb d hd hdne
      rw [List.foldl_cons]
      refine ih (groupStep acc b) ?_ ?_
        (fun b' hb' => hOK b' (List.mem_cons_of_mem _ hb'))
        (fun b' hb' => hdev b' (List.mem_cons_of_mem _ hb')) ?_
      · rw [hstep]
        exact alKeys_nodup_alSet _ _ _ hk
      · rw [hstep]
        intro kv hkv f hf
        rcases mem_alSet _ _ _ hk kv hkv with rfl | ⟨hm, _⟩
        · simp only at hf
          rcases List.mem_append.mp hf with hf | hf
          · cases hg : alGet d acc with
            | none => rw [hg] at hf; simp at hf
            | some old =>
              rw [hg] at hf
              simp only [Option.getD_some] at hf
              exact hI (d, old) (alGet_mem _ _ _ hg) f hf
          · have := hOK b (List.mem_cons_self _ _) f hf
            rw [hd] at this
            exact this
        · exact hI kv hm f hf
      · have hp2 := List.Perm.append_right rest.flatten hperm
        rw [List.Perm.nodup_iff hp2]
        have heq : ((acc.map Prod.snd).flatten ++ b) ++ rest.flatten =
            (acc.map Prod.snd).flatten ++ (b :: rest).flatten := by
          rw [List.flatten_cons, List.append_assoc]
        rw [heq]
        exact hnd

theorem groupBatchesByDevice_spec (pb : List (List Str))
    (hOK : ∀ b ∈ pb, ∀ f ∈ b, deviceOf f = deviceOf (b.headD []))
    (hdev : ∀ b ∈ pb, b ≠ [] → ∃ d, d ≠ [] ∧ deviceOf (b.headD []) = some d)
    (hnd : pb.flatten.Nodup) :
    (∀ kv ∈ groupBatchesByDevice pb, ∀ f ∈ kv.2, deviceOf f = some kv.1) ∧
    (((groupBatchesByDevice pb).map Prod.snd).flatten).Nodup := by
  have := groupFold_spec pb [] (by simp [alKeys]) (by simp) hOK hdev (by simpa using hnd)
  exact ⟨this.2.1, this.2.2⟩

theorem split_spec (maxB : ℤ) (dbs : List (Str × List Str)) (out : List (List Str))
    (h : split_device_batches maxB dbs = some out) :
    (∀ b ∈ out, (b.length : ℤ) ≤ maxB) ∧
    (∀ b ∈ out, ∃ kv ∈ dbs, ∀ x ∈ b, x ∈ kv.2) ∧
    (∃ sub : List (List Str), sub.Sublist (dbs.map Prod.snd) ∧ out.flatten = sub.flatten) := by
  induction dbs generalizing out with
  | nil =>
    simp only [split_device_batches, Option.some.injEq] at h
    subst h
    exact ⟨by simp, by simp, [], by simp, by simp⟩
  | cons kv t ih =>
    rw [split_device_batches] at h
    by_cases hgt : (kv.2.length : ℤ) > maxB
    · rw [if_pos hgt] at h
      by_cases h0 : maxB = 0
      · rw [if_pos h0] at h
        exact Option.noConfusion h
      · rw [if_neg h0] at h
        by_cases hneg : maxB < 0
        · rw [if_pos hneg] at h
          obtain ⟨hlen, hsub, sub, hsubl, hfl⟩ := ih _ h
          refine ⟨hlen, ?_, sub, List.Sublist.cons _ hsubl, hfl⟩
          intro b hb
          obtain ⟨kv2, hkv2, hx⟩ := hsub b hb
          exact ⟨kv2, List.mem_cons_of_mem _ hkv2, hx⟩
        · rw [if_neg hneg] at h
          cases hrec : split_device_batches maxB t with
          | none => rw [hrec] at h; exact Option.noConfusion h
          | some r =>
            rw [hrec] at h
            simp only [Option.map_some', Option.some.injEq] at h
            subst h
            obtain ⟨hlen, hsub, sub, hsubl, hfl⟩ := ih _ hrec
            have hk1 : 1 ≤ maxB.toNat := by omega
            refine ⟨?_, ?_, kv.2 :: sub, ?_, ?_⟩
            · intro b hb
              rcases List.mem_append.mp hb with hb | hb
              · have := mem_chunksF_length maxB.toNat kv.2.length kv.2 b hb
                omega
              · exact hlen b hb
            · intro b hb
              rcases List.mem_append.mp hb with hb | hb
              · exact ⟨kv, List.mem_cons_self _ _,
                  mem_chunksF_subset maxB.toNat kv.2.length kv.2 b hb⟩
              · obtain ⟨kv2, hkv2, hx⟩ := hsub b hb
                exact ⟨kv2, List.mem_cons_of_mem _ hkv2, hx⟩
            · exact List.Sublist.cons₂ _ hsubl
            · rw [List.flatten_append, List.flatten_cons, hfl,
                chunks_flatten maxB.toNat hk1 kv.2]
    · rw [if_neg hgt] at h
      cases hrec : split_device_batches maxB t with
      | none => rw [hrec] at h; exact Option.noConfusion h
      | some r =>
        rw [hrec] at h
        simp only [Option.map_some', Option.some.injEq] at h
        subst h
        obtain ⟨hlen, hsub, sub, hsubl, hfl⟩ := ih _ hrec
        refine ⟨?_, ?_, kv.2 :: sub, List.Sublist.cons₂ _ hsubl, ?_⟩
        · intro b hb
          rcases List.mem_cons.mp hb with rfl | hb
          · omega
          · exact hlen b hb
        · intro b hb
          rcases List.mem_cons.mp hb with rfl | hb
          · exact ⟨kv, List.mem_cons_self _ _, fun x hx => hx⟩
          · obtain ⟨kv2, hkv2, hx⟩ := hsub b hb
            exact ⟨kv2, List.mem_cons_of_mem _ hkv2, hx⟩
        · rw [List.flatten_cons, List.flatten_cons, hfl]

end OptLemmas

namespace OptLemmas

open ProcessBacklog ListLemmas StrLemmas PBLemmas

theorem batchOK_device_uniform (b : List Str) (h : BatchOK (batchSess b) b) :
    ∀ f ∈ b, deviceOf f = deviceOf (b.headD []) := by
  intro f hf
  obtain ⟨hne, _, hall⟩ := h
  obtain ⟨hsf, rf, hrf⟩ := hall f hf
  obtain ⟨hsh, rh, hrh⟩ := hall _ (headD_mem b [] hne)
  have hshape : SessShape (batchSess b) := by
    unfold batchSess
    exact sessShape_sessionOf _
  have hmf : '/' ∈ f := slash_mem_of_shape_pre _ _ hshape ⟨rf, hrf⟩
  have hmh : '/' ∈ b.headD [] := slash_mem_of_shape_pre _ _ hshape ⟨rh, hrh⟩
  unfold deviceOf
  rw [if_pos hmf, if_pos hmh]
  rw [seg1_eq_of_sessionOf_eq f (b.headD []) (by rw [hsf, hsh])]

theorem batchOK_device_truthy (b : List Str) (h : BatchOK (batchSess b) b)
    (hseg : seg1 (b.headD []) ≠ []) :
    b ≠ [] → ∃ d, d ≠ [] ∧ deviceOf (b.headD []) = some d := by
  intro _
  obtain ⟨hne, _, hall⟩ := h
  obtain ⟨hsh, rh, hrh⟩ := hall _ (headD_mem b [] hne)
  have hshape : SessShape (batchSess b) := sessShape_sessionOf _
  have hmh : '/' ∈ b.headD [] := slash_mem_of_shape_pre _ _ hshape ⟨rh, hrh⟩
  refine ⟨seg1 (b.headD []), hseg, ?_⟩
  unfold deviceOf
  rw [if_pos hmh]

theorem optimize_spec (mn mx : Json) (total : ℕ) (pb out : List (List Str))
    (hOK : ∀ b ∈ pb, BatchOK (batchSess b) b)
    (hseg : ∀ b ∈ pb, seg1 (b.headD []) ≠ [])
    (hnd : pb.flatten.Nodup)
    (h : optimize_batches mn mx total pb = some out) :
    out.flatten.Nodup ∧
    (∀ b ∈ out, ∀ f ∈ b, deviceOf f = deviceOf (b.headD [])) ∧
    (∀ minB maxB : ℤ, mn = Json.num minB → mx = Json.num maxB →
      1 < pb.length → (total : ℤ) < minB → ∀ b ∈ out, (b.length : ℤ) ≤ maxB) := by
  have hUnif : ∀ b ∈ pb, ∀ f ∈ b, deviceOf f = deviceOf (b.headD []) :=
    fun b hb => batchOK_device_uniform b (hOK b hb)
  have hDev : ∀ b ∈ pb, b ≠ [] → ∃ d, d ≠ [] ∧ deviceOf (b.headD []) = some d :=
    fun b hb => batchOK_device_truthy b (hOK b hb) (hseg b hb)
  unfold optimize_batches at h
  by_cases hlen : 1 < pb.length
  · rw [if_pos hlen] at h
    cases mn with
    | num minB =>
      dsimp only at h
      by_cases hmin : (total : ℤ) < minB
      · rw [if_pos hmin] at h
        cases mx with
        | num maxB =>
          dsimp only at h
          obtain ⟨hgI, hgN⟩ := groupBatchesByDevice_spec pb hUnif hDev hnd
          obtain ⟨hbound, hsub, sub, hsubl, hfl⟩ := split_spec maxB _ out h
          refine ⟨?_, ?_, ?_⟩
          · rw [hfl]
            exact List.Sublist.nodup (flatten_sublist hsubl) hgN
          · intro b hb f hf
            obtain ⟨kv, hkv, hx⟩ := hsub b hb
            have hfb := hgI kv hkv f (hx f hf)
            by_cases hbe : b = []
            · subst hbe
              simp at hf
            · have hhd := hgI kv hkv (b.headD []) (hx _ (headD_mem b [] hbe))
              rw [hfb, hhd]
          · intro minB' maxB' _ hmx _ _
            rw [Json.num.injEq] at hmx
            subst hmx
            exact hbound
        | null => exact Option.noConfusion h
        | bool _ => exact Option.noConfusion h
        | str _ => exact Option.noConfusion h
        | arr _ => exact Option.noConfusion h
        | obj _ => exact Option.noConfusion h
      · rw [if_neg hmin] at h
        rw [Option.some.injEq] at h
        subst h
        refine ⟨hnd, hUnif, ?_⟩
        intro minB' maxB' hmn _ _ hm
        rw [Json.num.injEq] at hmn
        subst hmn
        exact absurd hm hmin
    | null => exact Option.noConfusion h
    | bool _ => exact Option.noConfusion h
    | str _ => exact Option.noConfusion h
    | arr _ => exact Option.noConfusion h
    | obj _ => exact Option.noConfusion h
  · rw [if_neg hlen] at h
    rw [Option.some.injEq] at h
    subst h
    refine ⟨hnd, hUnif, ?_⟩
    intro minB' maxB' _ _ hl _
    exact absurd hl hlen

end OptLemmas

namespace EvLemmas

open DetectEvents

theorem processEventUnits_sent (units : List (List ℤ)) :
    ∀ n, processEventUnits true units true n = (true, n) := by
  induction units with
  | nil => intro n; rfl
  | cons u rest ih =>
    intro n
    by_cases hu : u.isEmpty
    · rw [processEventUnits, if_pos hu]
      exact ih n
    · rw [processEventUnits, if_neg hu]
      simp only [Bool.not_true, Bool.false_and, if_neg (by simp : ¬ (false = true))]
      exact ih n

theorem processEventUnits_fresh (units : List (List ℤ)) :
    ∀ n, processEventUnits true units false n =
      (if eventHasStart units then (true, n + 1) else (false, n)) := by
  induction units with
  | nil => intro n; rfl
  | cons u rest ih =>
    intro n
    by_cases hu : u.isEmpty
    · rw [processEventUnits, if_pos hu, ih n]
      have : eventHasStart (u :: rest) = eventHasStart rest := by
        simp [eventHasStart, hu]
      rw [this]
    · rw [processEventUnits, if_neg hu]
      dsimp only
      by_cases hs : (u.filter (fun v => decide (v = 1))).isEmpty
      · rw [hs, if_neg (show ¬ ((!false && !true) = true) by decide), ih n]
        have : eventHasStart (u :: rest) = eventHasStart rest := by
          simp [eventHasStart, hs]
        rw [this]
      · have hs' : (u.filter (fun v => decide (v = 1))).isEmpty = false := by
          rw [← Bool.not_eq_true]
          exact hs
        rw [hs', if_pos (show (!false && !false) = true by decide),
          processEventUnits_sent rest (n + 1)]
        have : eventHasStart (u :: rest) = true := by
          have hu' : u.isEmpty = false := by
            rw [← Bool.not_eq_true]
            exact hu
          simp [eventHasStart, hu', hs']
        rw [this, if_pos rfl]

theorem process_events_foldl (events : List (List (List ℤ))) :
    ∀ n, events.foldl (fun n ev => (processEventUnits true ev false n).2) n =
      n + (events.filter eventHasStart).length := by
  induction events with
  | nil => intro n; simp
  | cons ev rest ih =>
    intro n
    rw [List.foldl_cons, processEventUnits_fresh ev n]
    by_cases hs : eventHasStart ev
    · rw [if_pos hs]
      have hfil : List.filter eventHasStart (ev :: rest) =
          ev :: List.filter eventHasStart rest := by
        rw [List.filter_cons, if_pos hs]
      rw [hfil, ih (n + 1), List.length_cons]
      omega
    · rw [if_neg hs]
      have hfil : List.filter eventHasStart (ev :: rest) =
          List.filter eventHasStart rest := by
        rw [List.filter_cons, if_neg hs]
      rw [hfil]
      exact ih n

end EvLemmas

/-- C1 counterexample: in one processing run with two configured events, each
detecting one Start record, `process_events` publishes two notifications (the
`message_sent` flag is re-initialised to `False` inside the per-event loop at
utils.py:292), contradicting the claim that at most one notification is
published per whole run. -/
theorem claim_C1_counterexample :
    DetectEvents.process_events true [[[1]], [[1]]] = 2 ∧
    ¬ DetectEvents.process_events true [[[1]], [[1]]] ≤ 1 := by
  constructor
  · rfl
  · decide

/-- C1 amended: the "already sent" flag is scoped to one event, not to the
whole run.  When the notification collaborator succeeds, the run publishes
exactly one notification per configured event that detects at least one Start
record — equivalently, the number of publishes equals the number of events
with a Start, and is bounded by the number of events, not by one. -/
theorem claim_C1_amended :
    ∀ events : List (List (List ℤ)),
      DetectEvents.process_events true events =
        (events.filter DetectEvents.eventHasStart).length ∧
      DetectEvents.process_events true events ≤ events.length := by
  intro events
  constructor
  · unfold DetectEvents.process_events
    rw [EvLemmas.process_events_foldl events 0]
    omega
  · unfold DetectEvents.process_events
    rw [EvLemmas.process_events_foldl events 0]
    have := List.length_filter_le DetectEvents.eventHasStart events
    omega

/-- C10: valid-extension matching is case-insensitive — `has_valid_extension p`
holds exactly when the upper-cased path ends with `.MF4`, `.MFC`, `.MFE` or
`.MFM`; in particular every path ending in lowercase `.mf4` is accepted, and a
backlog reference with a lowercase extension is classified as a file and
collected into a batch by `process_backlog`. -/
theorem claim_C10 :
    (∀ p : Str, ProcessBacklog.has_valid_extension p = true ↔
      ((∃ q, p.map Char.toUpper = q ++ ".MF4".data) ∨
       (∃ q, p.map Char.toUpper = q ++ ".MFC".data) ∨
       (∃ q, p.map Char.toUpper = q ++ ".MFE".data) ∨
       (∃ q, p.map Char.toUpper = q ++ ".MFM".data))) ∧
    (∀ s : Str, ProcessBacklog.has_valid_extension (s ++ ".mf4".data) = true) ∧
    ProcessBacklog.process_backlog [] [["0BFD7754/00000001/file.mf4".data]] =
      [["0BFD7754/00000001/file.mf4".data]] := by
  refine ⟨?_, ?_, by decide⟩
  · intro p
    unfold ProcessBacklog.has_valid_extension ProcessBacklog.valid_extensions
    simp only [List.any_cons, List.any_nil, Bool.or_eq_true, Bool.or_false]
    rw [StrLemmas.isSuffixOf_iff_ex, StrLemmas.isSuffixOf_iff_ex,
      StrLemmas.isSuffixOf_iff_ex, StrLemmas.isSuffixOf_iff_ex]
  · intro s
    unfold ProcessBacklog.has_valid_extension ProcessBacklog.valid_extensions
    simp only [List.any_cons, List.any_nil, Bool.or_eq_true]
    left
    rw [StrLemmas.isSuffixOf_iff_ex]
    refine ⟨s.map Char.toUpper, ?_⟩
    rw [List.map_append]
    rfl

namespace AggLemmas

open Aggregation

theorem getD_le_of_sorted {α : Type} [LinearOrderedAddCommGroup α] (ts : List α)
    (hs : List.Sorted (fun a b => a ≤ b) ts) {i j : ℕ} (hij : i ≤ j) (hj : j < ts.length) :
    ts.getD i 0 ≤ ts.getD j 0 := by
  have hi : i < ts.length := lt_of_le_of_lt hij hj
  rw [List.getD_eq_getElem ts 0 hi, List.getD_eq_getElem ts 0 hj]
  rcases Nat.lt_or_ge i j with hlt | hge
  · exact List.pairwise_iff_get.mp hs ⟨i, hi⟩ ⟨j, hj⟩ hlt
  · have : i = j := le_antisymm hij hge
    subst this
    exact le_refl _

theorem tripBreaks_pairwise {α : Type} [LinearOrderedAddCommGroup α] (ts : List α) (gap : α) :
    (tripBreaks ts gap).Pairwise (· < ·) :=
  (List.pairwise_lt_range ts.length).sublist (List.filter_sublist _)

theorem tripBreaks_mem {α : Type} [LinearOrderedAddCommGroup α] (ts : List α) (gap : α)
    (i : ℕ) (h : i ∈ tripBreaks ts gap) :
    i < ts.length ∧ 0 < i ∧ gap < ts.getD i 0 - ts.getD (i - 1) 0 := by
  unfold tripBreaks at h
  rw [List.mem_filter] at h
  obtain ⟨hr, hp⟩ := h
  rw [Bool.and_eq_true, decide_eq_true_iff, decide_eq_true_iff] at hp
  exact ⟨List.mem_range.mp hr, hp.1, hp.2⟩

theorem windowsOfStarts_map_fst {α : Type} [LinearOrderedAddCommGroup α]
    (ts : List α) (ss : List ℕ) :
    (windowsOfStarts ts ss).map Prod.fst = ss.map (fun a => ts.getD a 0) := by
  induction ss with
  | nil => rfl
  | cons a tl ih =>
    cases tl with
    | nil => rfl
    | cons b rest =>
      rw [windowsOfStarts, List.map_cons, List.map_cons, ih]

theorem windowsOfStarts_spec {α : Type} [LinearOrderedAddCommGroup α] (ts : List α)
    (hs : List.Sorted (fun a b => a ≤ b) ts) (ss : List ℕ) :
    ss.Pairwise (· < ·) → (∀ a ∈ ss, a < ts.length) →
    (∀ b ∈ ss, 0 < b → ts.getD (b - 1) 0 < ts.getD b 0) →
    (∀ w ∈ windowsOfStarts ts ss, w.1 ≤ w.2) ∧
    (windowsOfStarts ts ss).Pairwise (fun w v => w.2 < v.1) := by
  induction ss with
  | nil =>
    intro _ _ _
    exact ⟨by simp [windowsOfStarts], by simp [windowsOfStarts]⟩
  | cons a tl ih =>
    intro hp hbound hbreak
    cases tl with
    | nil =>
      refine ⟨?_, by simp [windowsOfStarts]⟩
      intro w hw
      simp only [windowsOfStarts, List.mem_singleton] at hw
      subst hw
      have ha : a < ts.length := hbound a (List.mem_cons_self _ _)
      exact getD_le_of_sorted ts hs (by omega) (by omega)
    | cons b rest =>
      have hab : a < b := (List.pairwise_cons.mp hp).1 b (List.mem_cons_self _ _)
      have hb : b < ts.length := hbound b (List.mem_cons_of_mem _ (List.mem_cons_self _ _))
      obtain ⟨ih1, ih2⟩ := ih (List.Pairwise.of_cons hp)
        (fun x hx => hbound x (List.mem_cons_of_mem _ hx))
        (fun x hx h0 => hbreak x (List.mem_cons_of_mem _ hx) h0)
      have hwin : windowsOfStarts ts (a :: b :: rest) =
          (ts.getD a 0, ts.getD (b - 1) 0) :: windowsOfStarts ts (b :: rest) := rfl
      refine ⟨?_, ?_⟩
      · intro w hw
        rw [hwin, List.mem_cons] at hw
        rcases hw with hw | hw
        · subst hw
          exact getD_le_of_sorted ts hs (by omega) (by omega)
        · exact ih1 w hw
      · rw [hwin, List.pairwise_cons]
        refine ⟨?_, ih2⟩
        intro v hv
        have hv1 : v.1 ∈ (b :: rest).map (fun x => ts.getD x 0) := by
          rw [← windowsOfStarts_map_fst ts (b :: rest)]
          exact List.mem_map_of_mem Prod.fst hv
        rw [List.mem_map] at hv1
        obtain ⟨c, hc, hcv⟩ := hv1
        have hbc : b ≤ c := by
          rcases List.mem_cons.mp hc with rfl | hc
          · exact le_refl _
          · exact le_of_lt ((List.pairwise_cons.mp (List.Pairwise.of_cons hp)).1 c hc)
        have hc_len : c < ts.length := hbound c (List.mem_cons_of_mem _ hc)
        have h1 : ts.getD (b - 1) 0 < ts.getD b 0 :=
          hbreak b (List.mem_cons_of_mem _ (List.mem_cons_self _ _)) (by omega)
        have h2 : ts.getD b 0 ≤ ts.getD c 0 := getD_le_of_sorted ts hs hbc hc_len
        rw [← hcv]
        exact lt_of_lt_of_le h1 h2

theorem trip_windows_of_spec {α : Type} [LinearOrderedAddCommGroup α] (ts : List α)
    (gap m : α) (hs : List.Sorted (fun a b => a ≤ b) ts) (hg : 0 ≤ gap) :
    (∀ w ∈ trip_windows_of ts gap m, w.1 ≤ w.2 ∧ m ≤ w.2 - w.1) ∧
    (trip_windows_of ts gap m).Pairwise (fun w v => w.2 < v.1) := by
  unfold trip_windows_of
  by_cases he : ts.isEmpty
  · rw [if_pos he]
    exact ⟨by simp, by simp⟩
  · rw [if_neg he]
    have hlen : 0 < ts.length := by
      cases ts with
      | nil => simp at he
      | cons x t => simp
    have hspec := windowsOfStarts_spec ts hs (0 :: tripBreaks ts gap) ?_ ?_ ?_
    · obtain ⟨h1, h2⟩ := hspec
      refine ⟨?_, List.Pairwise.filter _ h2⟩
      intro w hw
      rw [List.mem_filter, decide_eq_true_iff] at hw
      exact ⟨h1 w hw.1, hw.2⟩
    · rw [List.pairwise_cons]
      exact ⟨fun b hb => (tripBreaks_mem ts gap b hb).2.1, tripBreaks_pairwise ts gap⟩
    · intro x hx
      rcases List.mem_cons.mp hx with rfl | hx
      · exact hlen
      · exact (tripBreaks_mem ts gap x hx).1
    · intro b hb h0
      rcases List.mem_cons.mp hb with rfl | hb
      · omega
      · have := (tripBreaks_mem ts gap b hb).2.2
        have hlt : 0 < ts.getD b 0 - ts.getD (b - 1) 0 := lt_of_le_of_lt hg this
        exact sub_pos.mp hlt

end AggLemmas

namespace S3Lemmas

theorem getD_map {β γ : Type} (f : β → γ) (l : List β) (i : ℕ) (h : i < l.length)
    (d : β) (d2 : γ) : (l.map f).getD i d2 = f (l.getD i d) := by
  rw [List.getD_eq_getElem _ _ (by simpa using h), List.getD_eq_getElem _ _ h,
    List.getElem_map]

theorem getD_mem {β : Type} (l : List β) (i : ℕ) (d : β) (h : i < l.length) :
    l.getD i d ∈ l := by
  rw [List.getD_eq_getElem l d h]
  exact List.getElem_mem h

theorem mapM_eq_map {β γ : Type} (f : β → Option γ) (g : β → γ) :
    ∀ l : List β, (∀ x ∈ l, f x = some (g x)) → l.mapM f = some (l.map g) := by
  intro l
  induction l with
  | nil => intro _; rfl
  | cons x t ih =>
    intro h
    rw [List.mapM_cons, h x (List.mem_cons_self _ _),
      ih (fun y hy => h y (List.mem_cons_of_mem _ hy))]
    rfl

theorem filter_lt_eq_take {α : Type} [LinearOrderedAddCommGroup α] (ts : List α)
    (hs : List.Sorted (fun a b => a ≤ b) ts) (b : ℕ) (h0 : 0 < b) (hb : b < ts.length)
    (hlt : ts.getD (b - 1) 0 < ts.getD b 0) :
    ts.filter (fun x => decide (x < ts.getD b 0)) = ts.take b := by
  have hsplit : ts.filter (fun x => decide (x < ts.getD b 0)) =
      (ts.take b).filter (fun x => decide (x < ts.getD b 0)) ++
      (ts.drop b).filter (fun x => decide (x < ts.getD b 0)) := by
    rw [← List.filter_append, List.take_append_drop]
  have h1 : (ts.take b).filter (fun x => decide (x < ts.getD b 0)) = ts.take b := by
    rw [List.filter_eq_self]
    intro x hx
    rw [List.mem_iff_getElem] at hx
    obtain ⟨i, hi, hx⟩ := hx
    have hi2 : i < b := by
      simp only [List.length_take] at hi
      omega
    have hi3 : i < ts.length := by omega
    have hground : (ts.take b).get ⟨i, hi⟩ = ts.get ⟨i, hi3⟩ := by
      simp [List.getElem_take]
    rw [decide_eq_true_eq, ← hx]
    rw [show (ts.take b)[i] = (ts.take b).get ⟨i, hi⟩ from rfl, hground]
    rw [show ts.get ⟨i, hi3⟩ = ts.getD i 0 from (List.getD_eq_getElem ts 0 hi3).symm]
    calc ts.getD i 0 ≤ ts.getD (b - 1) 0 :=
          AggLemmas.getD_le_of_sorted ts hs (by omega) (by omega)
      _ < ts.getD b 0 := hlt
  have h2 : (ts.drop b).filter (fun x => decide (x < ts.getD b 0)) = [] := by
    rw [List.filter_eq_nil_iff]
    intro x hx
    rw [List.mem_iff_getElem] at hx
    obtain ⟨i, hi, hx⟩ := hx
    have hi2 : b + i < ts.length := by
      simp only [List.length_drop] at hi
      omega
    have hground : (ts.drop b).get ⟨i, hi⟩ = ts.get ⟨b + i, hi2⟩ := by
      simp [List.getElem_drop]
    rw [decide_eq_true_eq, not_lt, ← hx]
    rw [show (ts.drop b)[i] = (ts.drop b).get ⟨i, hi⟩ from rfl, hground]
    rw [show ts.get ⟨b + i, hi2⟩ = ts.getD (b + i) 0 from
      (List.getD_eq_getElem ts 0 hi2).symm]
    exact AggLemmas.getD_le_of_sorted ts hs (by omega) (by omega)
  rw [hsplit, h1, h2, List.append_nil]

theorem lastBefore_break {α : Type} [LinearOrderedAddCommGroup α] (ts : List α)
    (hs : List.Sorted (fun a b => a ≤ b) ts) (b : ℕ) (h0 : 0 < b) (hb : b < ts.length)
    (hlt : ts.getD (b - 1) 0 < ts.getD b 0) :
    AggS3.lastBefore ts (ts.getD b 0) = some (ts.getD (b - 1) 0) := by
  unfold AggS3.lastBefore
  rw [filter_lt_eq_take ts hs b h0 hb hlt]
  rw [List.getLast?_eq_getElem? (ts.take b)]
  have hlen : (ts.take b).length = b := by
    simp only [List.length_take]
    omega
  rw [hlen, List.getElem?_take, if_pos (by omega : b - 1 < b),
    List.getElem?_eq_getElem (by omega : b - 1 < ts.length),
    List.getD_eq_getElem ts 0 (by omega : b - 1 < ts.length)]

theorem trip_starts_eq {α : Type} [LinearOrderedAddCommGroup α] (ts : List α) (gap : α)
    (hs : List.Sorted (fun a b => a ≤ b) ts) (hne : ts ≠ []) (hg : 0 ≤ gap) :
    AggS3.trip_starts_of ts gap =
      (0 :: Aggregation.tripBreaks ts gap).map (fun i => ts.getD i 0) := by
  have hhead : ts.headD 0 = ts.getD 0 0 := by
    cases ts with
    | nil => exact absurd rfl hne
    | cons x t => rfl
  have hnm : ts.headD 0 ∉ (Aggregation.tripBreaks ts gap).map (fun i => ts.getD i 0) := by
    intro hmem
    rw [List.mem_map] at hmem
    obtain ⟨b, hbmem, hbeq⟩ := hmem
    obtain ⟨hblen, hbpos, hbgap⟩ := AggLemmas.tripBreaks_mem ts gap b hbmem
    have h1 : ts.getD 0 0 ≤ ts.getD (b - 1) 0 :=
      AggLemmas.getD_le_of_sorted ts hs (by omega) (by omega)
    have h2 : ts.getD (b - 1) 0 < ts.getD b 0 := sub_pos.mp (lt_of_le_of_lt hg hbgap)
    rw [hhead] at hbeq
    have h3 : ts.getD 0 0 < ts.getD b 0 := lt_of_le_of_lt h1 h2
    rw [hbeq] at h3
    exact lt_irrefl _ h3
  unfold AggS3.trip_starts_of
  dsimp only
  rw [show (List.range ts.length).filter
      (fun i => decide (0 < i) && decide (gap < ts.getD i 0 - ts.getD (i - 1) 0)) =
      Aggregation.tripBreaks ts gap from rfl]
  rw [if_neg hnm, List.map_cons, hhead]

theorem map_range_succ {γ : Type} (g : ℕ → γ) (n : ℕ) :
    (List.range (n + 1)).map g = g 0 :: (List.range n).map (fun i => g (i + 1)) := by
  rw [List.range_succ_eq_map, List.map_cons, List.map_map]
  rfl

theorem zip_windows_eq {α : Type} [LinearOrderedAddCommGroup α] (ts : List α) :
    ∀ S : List ℕ, S ≠ [] →
      (S.map (fun i => ts.getD i 0)).zip
        (((List.range (S.length - 1)).map
          (fun i => ts.getD (S.getD (i + 1) 0 - 1) 0)) ++ [ts.getD (ts.length - 1) 0]) =
      Aggregation.windowsOfStarts ts S := by
  intro S
  induction S with
  | nil => intro h; exact absurd rfl h
  | cons a tl ih =>
    intro _
    cases tl with
    | nil => rfl
    | cons b rest =>
      rw [show (a :: b :: rest).length - 1 = rest.length + 1 from by simp]
      rw [map_range_succ, List.cons_append, List.map_cons, List.zip_cons_cons]
      rw [show Aggregation.windowsOfStarts ts (a :: b :: rest) =
        (ts.getD a 0, ts.getD (b - 1) 0) ::
          Aggregation.windowsOfStarts ts (b :: rest) from rfl]
      congr 1
      exact ih (by simp)

theorem s3_core_eq_modules {α : Type} [LinearOrderedAddCommGroup α] (ts : List α)
    (gap m : α) (hs : List.Sorted (fun a b => a ≤ b) ts) (hne : ts ≠ []) (hg : 0 ≤ gap) :
    AggS3.trip_windows_core ts gap m = some (Aggregation.trip_windows_of ts gap m) := by
  have hlen0 : 0 < ts.length := List.length_pos.mpr hne
  unfold AggS3.trip_windows_core
  dsimp only
  rw [trip_starts_eq ts gap hs hne hg]
  rw [show ((0 :: Aggregation.tripBreaks ts gap).map (fun i => ts.getD i 0)).length - 1 =
    (0 :: Aggregation.tripBreaks ts gap).length - 1 from by simp]
  have hmapM : (List.range ((0 :: Aggregation.tripBreaks ts gap).length - 1)).mapM
      (fun i => AggS3.lastBefore ts
        (((0 :: Aggregation.tripBreaks ts gap).map (fun i => ts.getD i 0)).getD (i + 1) 0)) =
      some ((List.range ((0 :: Aggregation.tripBreaks ts gap).length - 1)).map
        (fun i => ts.getD ((0 :: Aggregation.tripBreaks ts gap).getD (i + 1) 0 - 1) 0)) := by
    apply mapM_eq_map
    intro i hi
    rw [List.mem_range] at hi
    have hi2 : i < (Aggregation.tripBreaks ts gap).length := by
      simpa using hi
    have hiS : i + 1 < (0 :: Aggregation.tripBreaks ts gap).length := by
      simp only [List.length_cons]
      omega
    rw [getD_map (fun j => ts.getD j 0) (0 :: Aggregation.tripBreaks ts gap) (i + 1) hiS 0 0]
    have hbmem : (0 :: Aggregation.tripBreaks ts gap).getD (i + 1) 0 ∈
        Aggregation.tripBreaks ts gap := by
      rw [show (0 :: Aggregation.tripBreaks ts gap).getD (i + 1) 0 =
        (Aggregation.tripBreaks ts gap).getD i 0 from rfl]
      exact getD_mem _ i 0 hi2
    obtain ⟨hblen, hbpos, hbgap⟩ := AggLemmas.tripBreaks_mem ts gap _ hbmem
    exact lastBefore_break ts hs _ hbpos hblen (sub_pos.mp (lt_of_le_of_lt hg hbgap))
  rw [hmapM]
  dsimp only
  rw [show ts.getLastD 0 = ts.getD (ts.length - 1) 0 from by
    rw [List.getLastD_eq_getLast? 0 ts, List.getLast?_eq_getElem? ts,
      List.getElem?_eq_getElem (by omega : ts.length - 1 < ts.length),
      List.getD_eq_getElem ts 0 (by omega : ts.length - 1 < ts.length)]
    rfl]
  rw [zip_windows_eq ts (0 :: Aggregation.tripBreaks ts gap) (by simp)]
  unfold Aggregation.trip_windows_of
  rw [if_neg (show ¬ ts.isEmpty = true by simp [List.isEmpty_iff, hne])]

end S3Lemmas

/-- C3 counterexample: the claim quantifies over every gap threshold and
minimum length, but for a negative gap both segmentation implementations named
in the claim violate the invariants.  The modules core on the ascending
sequence `[0, 0]` with gap `-1` emits the overlapping, non-strictly-ordered
windows `[(0,0), (0,0)]`; the vA.0.2 `get_trip_windows` on `[0, 1, 1]` with
gap `-1` and minimum length `-1` returns `[(0,0), (1,0), (1,1)]`, whose second
window has end `0` before start `1` and whose last two windows share the same
start, so neither end ≥ start nor strict start ordering holds. -/
theorem claim_C3_counterexample :
    (Aggregation.trip_windows_of (α := ℤ) [0, 0] (-1) 0 = [(0, 0), (0, 0)] ∧
     ¬ (Aggregation.trip_windows_of (α := ℤ) [0, 0] (-1) 0).Pairwise
        (fun w v => w.2 < v.1) ∧
     ¬ (Aggregation.trip_windows_of (α := ℤ) [0, 0] (-1) 0).Pairwise
        (fun w v => w.1 < v.1)) ∧
    (AggS3.get_trip_windows (α := ℤ) true [("t".data, [some 0, some 1, some 1])]
        (-1) (-1) = some [(0, 0), (1, 0), (1, 1)] ∧
     AggS3.trip_windows_core (α := ℤ) [0, 1, 1] (-1) (-1) =
        some [(0, 0), (1, 0), (1, 1)] ∧
     ¬ (∀ w ∈ ([((0 : ℤ), (0 : ℤ)), (1, 0), (1, 1)] : List (ℤ × ℤ)), w.1 ≤ w.2) ∧
     ¬ (([((0 : ℤ), (0 : ℤ)), (1, 0), (1, 1)] : List (ℤ × ℤ)).Pairwise
        (fun w v => w.1 < v.1))) := by
  decide

/-- C3 amended: for every ascending timestamp sequence and every NON-NEGATIVE
gap threshold g and minimum length m, the trip windows of BOTH segmentation
implementations — the modules core `trip_windows_of` and the vA.0.2 core
`AggS3.trip_windows_core` (which on such input returns exactly the same
windows) — are pairwise non-overlapping (each window ends strictly before the
next begins), strictly ordered by start time, each has end ≥ start, and each
has duration end − start ≥ m.  (For a negative gap the guarantee fails in
both implementations, see the counterexample.) -/
theorem claim_C3_amended {α : Type} [LinearOrderedAddCommGroup α] (ts : List α) (gap m : α)
    (hs : List.Sorted (fun a b => a ≤ b) ts) (hg : 0 ≤ gap) :
    ((∀ w ∈ Aggregation.trip_windows_of ts gap m, w.1 ≤ w.2 ∧ m ≤ w.2 - w.1) ∧
     (Aggregation.trip_windows_of ts gap m).Pairwise (fun w v => w.2 < v.1) ∧
     (Aggregation.trip_windows_of ts gap m).Pairwise (fun w v => w.1 < v.1)) ∧
    (ts ≠ [] →
      AggS3.trip_windows_core ts gap m = some (Aggregation.trip_windows_of ts gap m) ∧
      ∃ ws, AggS3.trip_windows_core ts gap m = some ws ∧
        (∀ w ∈ ws, w.1 ≤ w.2 ∧ m ≤ w.2 - w.1) ∧
        ws.Pairwise (fun w v => w.2 < v.1) ∧
        ws.Pairwise (fun w v => w.1 < v.1)) := by
  obtain ⟨h1, h2⟩ := AggLemmas.trip_windows_of_spec ts gap m hs hg
  have h3 : (Aggregation.trip_windows_of ts gap m).Pairwise (fun w v => w.1 < v.1) := by
    refine List.Pairwise.imp_of_mem ?_ h2
    intro w v hw _ hlt
    exact lt_of_le_of_lt (h1 w hw).1 hlt
  refine ⟨⟨h1, h2, h3⟩, ?_⟩
  intro hne
  have heq := S3Lemmas.s3_core_eq_modules ts gap m hs hne hg
  exact ⟨heq, Aggregation.trip_windows_of ts gap m, heq, h1, h2, h3⟩

/-- C3 witness: the amended theorem applied to the concrete ascending sequence
`[0, 1, 20, 21]` with gap `10` and minimum length `0`. -/
theorem claim_C3_witness :
    List.Sorted (fun a b : ℤ => a ≤ b) [0, 1, 20, 21] ∧
    (0 : ℤ) ≤ 10 ∧
    (((∀ w ∈ Aggregation.trip_windows_of (α := ℤ) [0, 1, 20, 21] 10 0,
        w.1 ≤ w.2 ∧ 0 ≤ w.2 - w.1) ∧
      (Aggregation.trip_windows_of (α := ℤ) [0, 1, 20, 21] 10 0).Pairwise
        (fun w v => w.2 < v.1) ∧
      (Aggregation.trip_windows_of (α := ℤ) [0, 1, 20, 21] 10 0).Pairwise
        (fun w v => w.1 < v.1)) ∧
     (([0, 1, 20, 21] : List ℤ) ≠ [] →
       AggS3.trip_windows_core (α := ℤ) [0, 1, 20, 21] 10 0 =
         some (Aggregation.trip_windows_of (α := ℤ) [0, 1, 20, 21] 10 0) ∧
       ∃ ws, AggS3.trip_windows_core (α := ℤ) [0, 1, 20, 21] 10 0 = some ws ∧
         (∀ w ∈ ws, w.1 ≤ w.2 ∧ (0 : ℤ) ≤ w.2 - w.1) ∧
         ws.Pairwise (fun w v => w.2 < v.1) ∧
         ws.Pairwise (fun w v => w.1 < v.1))) :=
  ⟨by decide, by decide, claim_C3_amended [0, 1, 20, 21] 10 0 (by decide) (by decide)⟩

namespace EvLemmas

theorem dedupByKey_spec (key : ℕ → ℕ) (l : List ℕ) :
    ∀ seen : List ℕ,
    (DetectEvents.dedupByKey key l seen).Sublist l ∧
    ((DetectEvents.dedupByKey key l seen).map key).Nodup ∧
    (∀ j ∈ DetectEvents.dedupByKey key l seen, key j ∉ seen) ∧
    (∀ i ∈ l, key i ∉ seen →
      ∃ j ∈ DetectEvents.dedupByKey key l seen, key j = key i) := by
  induction l with
  | nil =>
    intro seen
    exact ⟨List.Sublist.refl _, by simp [DetectEvents.dedupByKey],
      by simp [DetectEvents.dedupByKey], by simp⟩
  | cons i rest ih =>
    intro seen
    by_cases hk : key i ∈ seen
    · have heq : DetectEvents.dedupByKey key (i :: rest) seen =
          DetectEvents.dedupByKey key rest seen := by
        rw [DetectEvents.dedupByKey, if_pos hk]
      obtain ⟨s1, s2, s3, s4⟩ := ih seen
      rw [heq]
      refine ⟨List.Sublist.cons i s1, s2, s3, ?_⟩
      intro x hx hnx
      rcases List.mem_cons.mp hx with rfl | hx
      · exact absurd hk hnx
      · exact s4 x hx hnx
    · have heq : DetectEvents.dedupByKey key (i :: rest) seen =
          i :: DetectEvents.dedupByKey key rest (key i :: seen) := by
        rw [DetectEvents.dedupByKey, if_neg hk]
      obtain ⟨s1, s2, s3, s4⟩ := ih (key i :: seen)
      rw [heq]
      refine ⟨List.Sublist.cons₂ i s1, ?_, ?_, ?_⟩
      · rw [List.map_cons, List.nodup_cons]
        refine ⟨?_, s2⟩
        intro hmem
        rw [List.mem_map] at hmem
        obtain ⟨j, hj, hkj⟩ := hmem
        have := s3 j hj
        rw [List.mem_cons] at this
        push_neg at this
        exact this.1 hkj
      · intro j hj
        rcases List.mem_cons.mp hj with rfl | hj
        · exact hk
        · have := s3 j hj
          rw [List.mem_cons] at this
          push_neg at this
          exact this.2
      · intro x hx hnx
        rcases List.mem_cons.mp hx with rfl | hx
        · exact ⟨x, List.mem_cons_self _ _, rfl⟩
        · by_cases hxe : key x = key i
          · exact ⟨i, List.mem_cons_self _ _, hxe.symm⟩
          · have hnx2 : key x ∉ key i :: seen := by
              rw [List.mem_cons]
              push_neg
              exact ⟨hxe, hnx⟩
            obtain ⟨j, hj, hkj⟩ := s4 x hx hnx2
            exact ⟨j, List.mem_cons_of_mem _ hj, hkj⟩

end EvLemmas

/-- C5 counterexample: on values `[0, 5, 3, 5]` with lower bound `1` and upper
bound `4` (non-exact matching), positions 1 and 3 lie in two distinct maximal
`above_upper == true` runs and both have `was_below_lower`, so the claimed
rule yields rising edges `[1, 3]`; the code however deduplicates the rising
rows by the run grouping of `below_lower` (utils.py:397, 401), under which
both rows share one group, and returns `[1]`. -/
theorem claim_C5_counterexample :
    DetectEvents.df_rising (α := ℤ) false 1 4 [0, 5, 3, 5] = [1] ∧
    DetectEvents.claimRising (α := ℤ) false 1 4 [0, 5, 3, 5] = [1, 3] ∧
    DetectEvents.df_rising (α := ℤ) false 1 4 [0, 5, 3, 5] ≠
      DetectEvents.claimRising (α := ℤ) false 1 4 [0, 5, 3, 5] := by
  decide

/-- C5 amended: the rising-edge rows are the qualifying rows (`above_upper`
with `was_below_lower`) deduplicated by the run grouping of `below_lower` —
not of `above_upper` as claimed; dually, the falling-edge rows are the
qualifying rows (`below_lower` with `was_above_upper`) deduplicated by the run
grouping of `above_upper`.  Each `below_lower` run thus contributes at most
one rising sample (the group ids of the kept rows are distinct), the kept rows
are a subsequence of the qualifying rows in row order, and every qualifying
row's run is represented by a kept row. -/
theorem claim_C5_amended {α : Type} [LinearOrder α] (ex : Bool) (lower upper : α)
    (vals : List α) :
    ((DetectEvents.df_rising ex lower upper vals).Sublist
      ((List.range vals.length).filter (fun i =>
        (DetectEvents.above_upper ex upper vals).getD i false &&
        DetectEvents.wasAny (DetectEvents.below_lower ex lower vals) i)) ∧
    ((DetectEvents.df_rising ex lower upper vals).map
      (DetectEvents.event_group (DetectEvents.below_lower ex lower vals))).Nodup ∧
    (∀ i ∈ (List.range vals.length).filter (fun i =>
        (DetectEvents.above_upper ex upper vals).getD i false &&
        DetectEvents.wasAny (DetectEvents.below_lower ex lower vals) i),
      ∃ j ∈ DetectEvents.df_rising ex lower upper vals,
        DetectEvents.event_group (DetectEvents.below_lower ex lower vals) j =
        DetectEvents.event_group (DetectEvents.below_lower ex lower vals) i)) ∧
    ((DetectEvents.df_falling ex lower upper vals).Sublist
      ((List.range vals.length).filter (fun i =>
        (DetectEvents.below_lower ex lower vals).getD i false &&
        DetectEvents.wasAny (DetectEvents.above_upper ex upper vals) i)) ∧
    ((DetectEvents.df_falling ex lower upper vals).map
      (DetectEvents.event_group (DetectEvents.above_upper ex upper vals))).Nodup ∧
    (∀ i ∈ (List.range vals.length).filter (fun i =>
        (DetectEvents.below_lower ex lower vals).getD i false &&
        DetectEvents.wasAny (DetectEvents.above_upper ex upper vals) i),
      ∃ j ∈ DetectEvents.df_falling ex lower upper vals,
        DetectEvents.event_group (DetectEvents.above_upper ex upper vals) j =
        DetectEvents.event_group (DetectEvents.above_upper ex upper vals) i)) := by
  constructor
  · obtain ⟨s1, s2, _, s4⟩ := EvLemmas.dedupByKey_spec
      (DetectEvents.event_group (DetectEvents.below_lower ex lower vals))
      ((List.range vals.length).filter (fun i =>
        (DetectEvents.above_upper ex upper vals).getD i false &&
        DetectEvents.wasAny (DetectEvents.below_lower ex lower vals) i)) []
    exact ⟨s1, s2, fun i hi => s4 i hi (by simp)⟩
  · obtain ⟨s1, s2, _, s4⟩ := EvLemmas.dedupByKey_spec
      (DetectEvents.event_group (DetectEvents.above_upper ex upper vals))
      ((List.range vals.length).filter (fun i =>
        (DetectEvents.below_lower ex lower vals).getD i false &&
        DetectEvents.wasAny (DetectEvents.above_upper ex upper vals) i)) []
    exact ⟨s1, s2, fun i hi => s4 i hi (by simp)⟩

/-- C2 counterexample: first-seen input order is not kept.  With the store
holding `AABBCC00/11111111/{A,F}.MF4` and a backlog that lists the file
`…/F.MF4` first and the device `AABBCC00/` second, `F.MF4` is seen first; but
when the device expansion reaches the same session, the planner pops the
already-started batch and rebuilds it in listing order (utils.py:955-966), so
the output batch is `[A.MF4, F.MF4]` — not a subsequence of the first-seen
sequence `[F.MF4, A.MF4]`. -/
theorem claim_C2_counterexample :
    ProcessBacklog.process_backlog
        ["AABBCC00/11111111/A.MF4".data, "AABBCC00/11111111/F.MF4".data]
        [["AABBCC00/11111111/F.MF4".data, "AABBCC00/".data]] =
      [["AABBCC00/11111111/A.MF4".data, "AABBCC00/11111111/F.MF4".data]] ∧
    dedupFirst (ProcessBacklog.claimSeenSeq
        ["AABBCC00/11111111/A.MF4".data, "AABBCC00/11111111/F.MF4".data]
        [["AABBCC00/11111111/F.MF4".data, "AABBCC00/".data]]) =
      ["AABBCC00/11111111/F.MF4".data, "AABBCC00/11111111/A.MF4".data] ∧
    ¬ (["AABBCC00/11111111/A.MF4".data, "AABBCC00/11111111/F.MF4".data].Sublist
        (dedupFirst (ProcessBacklog.claimSeenSeq
          ["AABBCC00/11111111/A.MF4".data, "AABBCC00/11111111/F.MF4".data]
          [["AABBCC00/11111111/F.MF4".data, "AABBCC00/".data]]))) := by
  decide

/-- C2 amended: for every backlog plan (the expanded reference lists followed
by the optional size optimization), no file path appears in more than one
batch — before and after optimization — and whenever the optimization ran
(`mn`/`mx` numeric, more than one provisional batch, manifest reference count
below `min_batch_size`), every output batch has length at most
`max_batch_size` and contains files of exactly one device.  The first-seen
order part of the claim is false (see the counterexample); the device-purity
part needs every provisional batch to start with a non-empty first path
segment (Python truthiness of the device id), which `hseg` supplies. -/
theorem claim_C2_amended (store : List Str) (refs : List (List Str)) (mn mx : Json)
    (total : ℕ) (out : List (List Str))
    (hseg : ∀ b ∈ ProcessBacklog.process_backlog store refs, seg1 (b.headD []) ≠ [])
    (h : ProcessBacklog.optimize_batches mn mx total
      (ProcessBacklog.process_backlog store refs) = some out) :
    (ProcessBacklog.process_backlog store refs).flatten.Nodup ∧
    out.flatten.Nodup ∧
    (∀ b ∈ out, ∀ f ∈ b, ProcessBacklog.deviceOf f = ProcessBacklog.deviceOf (b.headD [])) ∧
    (∀ minB maxB : ℤ, mn = Json.num minB → mx = Json.num maxB →
      1 < (ProcessBacklog.process_backlog store refs).length → (total : ℤ) < minB →
      ∀ b ∈ out, (b.length : ℤ) ≤ maxB) := by
  obtain ⟨hOK, _⟩ := PBLemmas.process_backlog_spec store refs
  have hnd := PBLemmas.process_backlog_flatten_nodup store refs
  obtain ⟨o1, o2, o3⟩ := OptLemmas.optimize_spec mn mx total _ out hOK hseg hnd h
  exact ⟨hnd, o1, o2, o3⟩

/-- C2 witness: the amended theorem applied to a store-less plan with one file
reference and batch-size bounds `min = 5`, `max = 2`. -/
theorem claim_C2_witness :
    (ProcessBacklog.process_backlog [] [["AABBCC00/11111111/A.MF4".data]]).flatten.Nodup ∧
    ([["AABBCC00/11111111/A.MF4".data]] : List (List Str)).flatten.Nodup ∧
    (∀ b ∈ ([["AABBCC00/11111111/A.MF4".data]] : List (List Str)), ∀ f ∈ b,
      ProcessBacklog.deviceOf f = ProcessBacklog.deviceOf (b.headD [])) ∧
    (∀ minB maxB : ℤ, Json.num 5 = Json.num minB → Json.num 2 = Json.num maxB →
      1 < (ProcessBacklog.process_backlog [] [["AABBCC00/11111111/A.MF4".data]]).length →
      (1 : ℤ) < minB →
      ∀ b ∈ ([["AABBCC00/11111111/A.MF4".data]] : List (List Str)), (b.length : ℤ) ≤ maxB) :=
  claim_C2_amended [] [["AABBCC00/11111111/A.MF4".data]] (Json.num 5) (Json.num 2) 1
    [["AABBCC00/11111111/A.MF4".data]] (by decide) (by decide)

/-- C4 counterexample: the optimization does not run exactly when the total
item count across the provisional batches is below `min_batch_size` — the code
compares `len(backlog_file_data)`, the number of top-level manifest
references, and also requires more than one provisional batch
(utils.py:809-810).  With one device reference expanding to two session
batches of two files each (4 items ≥ min = 3), the optimization nevertheless
runs (1 reference < 3) and merges the two batches into one. -/
theorem claim_C4_counterexample :
    ProcessBacklog.process_backlog
        ["AABBCC00/11111111/A.MF4".data, "AABBCC00/11111111/B.MF4".data,
         "AABBCC00/22222222/C.MF4".data, "AABBCC00/22222222/D.MF4".data]
        [["AABBCC00/".data]] =
      [["AABBCC00/11111111/A.MF4".data, "AABBCC00/11111111/B.MF4".data],
       ["AABBCC00/22222222/C.MF4".data, "AABBCC00/22222222/D.MF4".data]] ∧
    ¬ ((4 : ℤ) < 3) ∧
    ProcessBacklog.plan_result
      (some (Json.obj [("files".data, Json.arr [Json.str "AABBCC00/".data]),
        ("config".data, Json.obj [("batch_size".data,
          Json.obj [("min".data, Json.num 3), ("max".data, Json.num 256)])])]))
      ["AABBCC00/11111111/A.MF4".data, "AABBCC00/11111111/B.MF4".data,
       "AABBCC00/22222222/C.MF4".data, "AABBCC00/22222222/D.MF4".data] =
    ProcessBacklog.PlanOutcome.ok
      [["AABBCC00/11111111/A.MF4".data, "AABBCC00/11111111/B.MF4".data,
        "AABBCC00/22222222/C.MF4".data, "AABBCC00/22222222/D.MF4".data]] := by
  decide

/-- C4 amended: the size optimization runs exactly when there is more than one
provisional batch AND the number of top-level manifest references (not the
item count across batches) is below `min_batch_size`; outside that trigger the
provisional batches are returned unchanged.  When it runs it equals
per-device grouping followed by splitting, and the split output consists of
batches of length at most `max_batch_size`, each drawn from a single
per-device list, whose concatenation is the concatenation of a subsequence of
the per-device lists (contiguous, order-preserving chunks). -/
theorem claim_C4_amended (mn mx : Json) (total : ℕ) (pb : List (List Str)) :
    (¬ 1 < pb.length → ProcessBacklog.optimize_batches mn mx total pb = some pb) ∧
    (∀ minB : ℤ, mn = Json.num minB → 1 < pb.length → ¬ ((total : ℤ) < minB) →
      ProcessBacklog.optimize_batches mn mx total pb = some pb) ∧
    (∀ minB maxB : ℤ, mn = Json.num minB → mx = Json.num maxB →
      1 < pb.length → (total : ℤ) < minB →
      ProcessBacklog.optimize_batches mn mx total pb =
        ProcessBacklog.split_device_batches maxB (ProcessBacklog.groupBatchesByDevice pb)) ∧
    (∀ maxB : ℤ, ∀ out : List (List Str),
      ProcessBacklog.split_device_batches maxB (ProcessBacklog.groupBatchesByDevice pb) =
        some out →
      (∀ b ∈ out, (b.length : ℤ) ≤ maxB) ∧
      (∀ b ∈ out, ∃ kv ∈ ProcessBacklog.groupBatchesByDevice pb, ∀ x ∈ b, x ∈ kv.2) ∧
      (∃ sub : List (List Str),
        sub.Sublist ((ProcessBacklog.groupBatchesByDevice pb).map Prod.snd) ∧
        out.flatten = sub.flatten)) := by
  refine ⟨?_, ?_, ?_, ?_⟩
  · intro hlen
    unfold ProcessBacklog.optimize_batches
    rw [if_neg hlen]
  · intro minB hmn hlen hmin
    subst hmn
    unfold ProcessBacklog.optimize_batches
    rw [if_pos hlen]
    dsimp only
    rw [if_neg hmin]
  · intro minB maxB hmn hmx hlen hmin
    subst hmn
    subst hmx
    unfold ProcessBacklog.optimize_batches
    rw [if_pos hlen]
    dsimp only
    rw [if_pos hmin]
  · intro maxB out h
    exact OptLemmas.split_spec maxB _ out h

namespace CloudLemmas

theorem mapIdx_all_iff (bs : List (List Str)) :
    ∀ run : ℕ → List Str → Bool,
      (bs.mapIdx (fun i b => run i b)).all id = true ↔
      ∀ i, i < bs.length → run i (bs.getD i []) = true := by
  induction bs with
  | nil =>
    intro run
    simp
  | cons b t ih =>
    intro run
    have hcons : ((b :: t).mapIdx (fun i x => run i x)) =
        run 0 b :: t.mapIdx (fun i x => run (i + 1) x) := by
      simp [List.mapIdx_cons]
    rw [hcons, List.all_cons, Bool.and_eq_true]
    rw [ih (fun i x => run (i + 1) x)]
    constructor
    · rintro ⟨h1, h2⟩ i hi
      cases i with
      | zero => exact h1
      | succ n => exact h2 n (by simpa using hi)
    · intro h
      refine ⟨h 0 (by simp), ?_⟩
      intro n hn
      exact h (n + 1) (by simpa using hn)

end CloudLemmas

/-- C7 counterexample: a backlog manifest that is structurally VALID (it has
`files` and both `config.batch_size` bounds) but whose `files` list is empty
also makes `process_backlog_from_cloud` fail and stop before any planning
(`if not backlog_file_data: return False`, utils.py:800-807) — the claimed
"exactly when structurally invalid" is too narrow. -/
theorem claim_C7_counterexample :
    (ProcessBacklog.download_backlog_json (some (Json.obj
      [("files".data, Json.arr []),
       ("config".data, Json.obj [("batch_size".data,
         Json.obj [("min".data, Json.num 1), ("max".data, Json.num 2)])])]))).isSome
      = true ∧
    ProcessBacklog.process_backlog_from_cloud (some (Json.obj
      [("files".data, Json.arr []),
       ("config".data, Json.obj [("batch_size".data,
         Json.obj [("min".data, Json.num 1), ("max".data, Json.num 2)])])]))
      [] (fun _ _ => true) = some false := by
  decide

/-- C7 amended: `process_backlog_from_cloud` returns the early failure
`some false` when the manifest is structurally invalid (missing `files`,
`config`, `config.batch_size` or its `min`/`max`, or unparseable JSON —
`download_backlog_json` returns `none`) AND ALSO when the manifest is valid
but its `files` value is falsy (e.g. an empty list); whenever planning
succeeds, the overall result is the conjunction of the per-batch oracle
results — every batch is run and one failed batch never prevents later
batches from being processed. -/
theorem claim_C7_amended (manifest : Option Json) (store : List Str)
    (run : ℕ → List Str → Bool) :
    (ProcessBacklog.download_backlog_json manifest = none →
      ProcessBacklog.process_backlog_from_cloud manifest store run = some false) ∧
    (∀ files mn mx : Json,
      ProcessBacklog.download_backlog_json manifest = some (files, mn, mx) →
      pyFalsy files = true →
      ProcessBacklog.process_backlog_from_cloud manifest store run = some false) ∧
    (∀ bs : List (List Str),
      ProcessBacklog.plan_result manifest store = ProcessBacklog.PlanOutcome.ok bs →
      ProcessBacklog.process_backlog_from_cloud manifest store run =
        some (ProcessBacklog.process_mdf_batches run bs) ∧
      (ProcessBacklog.process_backlog_from_cloud manifest store run = some true ↔
        ∀ i, i < bs.length → run i (bs.getD i []) = true)) := by
  refine ⟨?_, ?_, ?_⟩
  · intro h
    have hplan : ProcessBacklog.plan_result manifest store =
        ProcessBacklog.PlanOutcome.fatal := by
      unfold ProcessBacklog.plan_result
      rw [h]
    unfold ProcessBacklog.process_backlog_from_cloud
    rw [hplan]
  · intro files mn mx hd hf
    have hplan : ProcessBacklog.plan_result manifest store =
        ProcessBacklog.PlanOutcome.fatal := by
      unfold ProcessBacklog.plan_result
      rw [hd]
      dsimp only
      rw [if_pos hf]
    unfold ProcessBacklog.process_backlog_from_cloud
    rw [hplan]
  · intro bs hok
    have h1 : ProcessBacklog.process_backlog_from_cloud manifest store run =
        some (ProcessBacklog.process_mdf_batches run bs) := by
      unfold ProcessBacklog.process_backlog_from_cloud
      rw [hok]
    refine ⟨h1, ?_⟩
    rw [h1, Option.some_inj]
    unfold ProcessBacklog.process_mdf_batches
    exact CloudLemmas.mapIdx_all_iff bs run

/-- C8 counterexample: with `specific_period` dates `start_date = 2024-01-02`
and `end_date = 2024-01-01` — the end date one day EARLIER than the start —
`_extract_config_parameters` raises no `ValueError` and returns the period
normally: the function never compares the two dates (aggregation.py:160-170),
so the claimed "end_date earlier than start_date" cause does not exist. -/
theorem claim_C8_counterexample :
    Aggregation.extract_config_parameters (Json.obj [("config".data, Json.obj
      [("date".data, Json.obj
        [("mode".data, Json.str "specific_period".data),
         ("start_date".data, Json.str "2024-01-02".data),
         ("end_date".data, Json.str "2024-01-01".data)])])]) =
      Aggregation.PyRes.ok (Aggregation.DateCfg.specificPeriod ⟨2024, 1, 2⟩ ⟨2024, 1, 1⟩) ∧
    Aggregation.extract_config_parameters (Json.obj [("config".data, Json.obj
      [("date".data, Json.obj
        [("mode".data, Json.str "specific_period".data),
         ("start_date".data, Json.str "2024-01-02".data),
         ("end_date".data, Json.str "2024-01-01".data)])])]) ≠
      Aggregation.PyRes.valueError := by
  constructor
  · decide
  · decide

/-- C8 amended: loading the aggregations configuration raises `ValueError`
when the date configuration is missing, its mode is absent, falsy or unknown,
or in `specific_period` mode a `start_date`/`end_date` is missing or a date
string is not a valid `YYYY-MM-DD` date — but NOT when `end_date` is earlier
than `start_date`: whenever both dates parse, the configuration is accepted
regardless of their order (see the counterexample). -/
theorem claim_C8_amended :
    (∀ kvs ckvs, jGet kvs "config".data = some (Json.obj ckvs) →
      jGet ckvs "date".data = none →
      Aggregation.extract_config_parameters (Json.obj kvs) = Aggregation.PyRes.valueError) ∧
    (∀ kvs ckvs dkvs, jGet kvs "config".data = some (Json.obj ckvs) →
      jGet ckvs "date".data = some (Json.obj dkvs) →
      jGet dkvs "mode".data = none →
      Aggregation.extract_config_parameters (Json.obj kvs) = Aggregation.PyRes.valueError) ∧
    (∀ kvs ckvs dkvs mj, jGet kvs "config".data = some (Json.obj ckvs) →
      jGet ckvs "date".data = some (Json.obj dkvs) →
      jGet dkvs "mode".data = some mj → pyFalsy mj = true →
      Aggregation.extract_config_parameters (Json.obj kvs) = Aggregation.PyRes.valueError) ∧
    (∀ kvs ckvs dkvs s, jGet kvs "config".data = some (Json.obj ckvs) →
      jGet ckvs "date".data = some (Json.obj dkvs) →
      jGet dkvs "mode".data = some (Json.str s) → pyFalsy (Json.str s) = false →
      s ≠ "previous_day".data → s ≠ "specific_period".data →
      Aggregation.extract_config_parameters (Json.obj kvs) = Aggregation.PyRes.valueError) ∧
    (∀ kvs ckvs dkvs, jGet kvs "config".data = some (Json.obj ckvs) →
      jGet ckvs "date".data = some (Json.obj dkvs) →
      jGet dkvs "mode".data = some (Json.str "previous_day".data) →
      Aggregation.extract_config_parameters (Json.obj kvs) =
        Aggregation.PyRes.ok Aggregation.DateCfg.previousDay) ∧
    (∀ kvs ckvs dkvs, jGet kvs "config".data = some (Json.obj ckvs) →
      jGet ckvs "date".data = some (Json.obj dkvs) →
      jGet dkvs "mode".data = some (Json.str "specific_period".data) →
      jGet dkvs "start_date".data = none →
      Aggregation.extract_config_parameters (Json.obj kvs) = Aggregation.PyRes.valueError) ∧
    (∀ kvs ckvs dkvs s1, jGet kvs "config".data = some (Json.obj ckvs) →
      jGet ckvs "date".data = some (Json.obj dkvs) →
      jGet dkvs "mode".data = some (Json.str "specific_period".data) →
      jGet dkvs "start_date".data = some s1 →
      jGet dkvs "end_date".data = none →
      Aggregation.extract_config_parameters (Json.obj kvs) = Aggregation.PyRes.valueError) ∧
    (∀ kvs ckvs dkvs ss e2, jGet kvs "config".data = some (Json.obj ckvs) →
      jGet ckvs "date".data = some (Json.obj dkvs) →
      jGet dkvs "mode".data = some (Json.str "specific_period".data) →
      jGet dkvs "start_date".data = some (Json.str ss) →
      jGet dkvs "end_date".data = some e2 →
      Aggregation.parseYMD ss = none →
      Aggregation.extract_config_parameters (Json.obj kvs) = Aggregation.PyRes.valueError) ∧
    (∀ kvs ckvs dkvs ss es d1, jGet kvs "config".data = some (Json.obj ckvs) →
      jGet ckvs "date".data = some (Json.obj dkvs) →
      jGet dkvs "mode".data = some (Json.str "specific_period".data) →
      jGet dkvs "start_date".data = some (Json.str ss) →
      jGet dkvs "end_date".data = some (Json.str es) →
      Aggregation.parseYMD ss = some d1 → Aggregation.parseYMD es = none →
      Aggregation.extract_config_parameters (Json.obj kvs) = Aggregation.PyRes.valueError) ∧
    (∀ kvs ckvs dkvs ss es d1 d2, jGet kvs "config".data = some (Json.obj ckvs) →
      jGet ckvs "date".data = some (Json.obj dkvs) →
      jGet dkvs "mode".data = some (Json.str "specific_period".data) →
      jGet dkvs "start_date".data = some (Json.str ss) →
      jGet dkvs "end_date".data = some (Json.str es) →
      Aggregation.parseYMD ss = some d1 → Aggregation.parseYMD es = some d2 →
      Aggregation.extract_config_parameters (Json.obj kvs) =
        Aggregation.PyRes.ok (Aggregation.DateCfg.specificPeriod d1 d2)) := by
  refine ⟨?_, ?_, ?_, ?_, ?_, ?_, ?_, ?_, ?_, ?_⟩
  · intro kvs ckvs h1 h2
    unfold Aggregation.extract_config_parameters
    dsimp only
    rw [h1]
    dsimp only
    rw [h2]
  · intro kvs ckvs dkvs h1 h2 h3
    unfold Aggregation.extract_config_parameters
    dsimp only
    rw [h1]
    dsimp only
    rw [h2]
    dsimp only
    rw [h3]
  · intro kvs ckvs dkvs mj h1 h2 h3 hf
    unfold Aggregation.extract_config_parameters
    dsimp only
    rw [h1]
    dsimp only
    rw [h2]
    dsimp only
    rw [h3]
    dsimp only
    rw [if_pos hf]
  · intro kvs ckvs dkvs s h1 h2 h3 hf hne1 hne2
    unfold Aggregation.extract_config_parameters
    dsimp only
    rw [h1]
    dsimp only
    rw [h2]
    dsimp only
    rw [h3]
    dsimp only
    rw [if_neg (show ¬ pyFalsy (Json.str s) = true by simp [hf]), if_neg hne1, if_neg hne2]
  · intro kvs ckvs dkvs h1 h2 h3
    unfold Aggregation.extract_config_parameters
    dsimp only
    rw [h1]
    dsimp only
    rw [h2]
    dsimp only
    rw [h3]
    dsimp only
    rw [if_neg (by decide : ¬ pyFalsy (Json.str "previous_day".data) = true), if_pos rfl]
  · intro kvs ckvs dkvs h1 h2 h3 h4
    unfold Aggregation.extract_config_parameters
    dsimp only
    rw [h1]
    dsimp only
    rw [h2]
    dsimp only
    rw [h3]
    dsimp only
    rw [if_neg (by decide : ¬ pyFalsy (Json.str "specific_period".data) = true),
      if_neg (by decide : ¬ ("specific_period".data = "previous_day".data)), if_pos rfl]
    rw [h4]
  · intro kvs ckvs dkvs s1 h1 h2 h3 h4 h5
    unfold Aggregation.extract_config_parameters
    dsimp only
    rw [h1]
    dsimp only
    rw [h2]
    dsimp only
    rw [h3]
    dsimp only
    rw [if_neg (by decide : ¬ pyFalsy (Json.str "specific_period".data) = true),
      if_neg (by decide : ¬ ("specific_period".data = "previous_day".data)), if_pos rfl]
    rw [h4, h5]
  · intro kvs ckvs dkvs ss e2 h1 h2 h3 h4 h5 hp
    unfold Aggregation.extract_config_parameters
    dsimp only
    rw [h1]
    dsimp only
    rw [h2]
    dsimp only
    rw [h3]
    dsimp only
    rw [if_neg (by decide : ¬ pyFalsy (Json.str "specific_period".data) = true),
      if_neg (by decide : ¬ ("specific_period".data = "previous_day".data)), if_pos rfl]
    rw [h4, h5]
    dsimp only
    rw [hp]
  · intro kvs ckvs dkvs ss es d1 h1 h2 h3 h4 h5 hp1 hp2
    unfold Aggregation.extract_config_parameters
    dsimp only
    rw [h1]
    dsimp only
    rw [h2]
    dsimp only
    rw [h3]
    dsimp only
    rw [if_neg (by decide : ¬ pyFalsy (Json.str "specific_period".data) = true),
      if_neg (by decide : ¬ ("specific_period".data = "previous_day".data)), if_pos rfl]
    rw [h4, h5]
    dsimp only
    rw [hp1]
    dsimp only
    rw [hp2]
  · intro kvs ckvs dkvs ss es d1 d2 h1 h2 h3 h4 h5 hp1 hp2
    unfold Aggregation.extract_config_parameters
    dsimp only
    rw [h1]
    dsimp only
    rw [h2]
    dsimp only
    rw [h3]
    dsimp only
    rw [if_neg (by decide : ¬ pyFalsy (Json.str "specific_period".data) = true),
      if_neg (by decide : ¬ ("specific_period".data = "previous_day".data)), if_pos rfl]
    rw [h4, h5]
    dsimp only
    rw [hp1]
    dsimp only
    rw [hp2]

/-- C9 counterexample: the claim covers both implementations, but the vA.0.2
`get_trip_windows` has no `try/except`: when files were found and the
concatenated table lacks the `t` column (KeyError), or a timestamp cannot be
parsed (`pd.to_datetime` raising), the exception propagates to the caller
(modelled `none`) instead of yielding an empty window list. -/
theorem claim_C9_counterexample :
    AggS3.get_trip_windows (α := ℤ) true [("x".data, [some 0])] 10 0 = none ∧
    AggS3.get_trip_windows (α := ℤ) true [("t".data, [none])] 10 0 = none := by
  decide

/-- C9 amended: in the modules implementation (aggregation.py:283-360), whose
whole body runs inside `try/except`, a missing `TimeStamp` column or an
unparseable timestamp entry yields an empty window list and never raises to
the caller; the vA.0.2 implementation does NOT have this property (see the
counterexample). -/
theorem claim_C9_amended :
    (∀ (tbl : List (Str × List (Option ℤ))) (gap m : ℤ),
      alGet "TimeStamp".data tbl = none →
      Aggregation.get_trip_windows tbl gap m = []) ∧
    (∀ (tbl : List (Str × List (Option ℤ))) (col : List (Option ℤ)) (gap m : ℤ),
      alGet "TimeStamp".data tbl = some col → col.mapM id = none →
      Aggregation.get_trip_windows tbl gap m = []) := by
  constructor
  · intro tbl gap m h
    unfold Aggregation.get_trip_windows
    rw [h]
  · intro tbl col gap m h1 h2
    unfold Aggregation.get_trip_windows
    rw [h1]
    dsimp only
    rw [h2]

/-- C6 counterexample: on the fixture table (X = [1,2,3] at t = [0,5,10],
window (0,10), aggregation types ["avg","count"]), the vA.0.2
`process_aggregation_for_trip` emits only ONE row — the avg row — because its
aggregation chain (vA.0.2 script:224-246) has no "count" branch and rows with
`result_value = None` are skipped; the claimed separate count record does not
exist there. -/
theorem claim_C6_counterexample :
    (AggS3.process_aggregation_for_trip (α := ℚ) "dev".data "msg".data
      ["X".data] ["avg".data, "count".data] (0, 10) "cl".data
      ⟨[0, 5, 10], [("X".data, [1, 2, 3])]⟩).map AggS3.AggRow.aggregation =
      ["avg".data] ∧
    ¬ ((AggS3.process_aggregation_for_trip (α := ℚ) "dev".data "msg".data
      ["X".data] ["avg".data, "count".data] (0, 10) "cl".data
      ⟨[0, 5, 10], [("X".data, [1, 2, 3])]⟩).length = 2) := by
  constructor
  · rfl
  · have hl : (AggS3.process_aggregation_for_trip (α := ℚ) "dev".data "msg".data
        ["X".data] ["avg".data, "count".data] (0, 10) "cl".data
        ⟨[0, 5, 10], [("X".data, [1, 2, 3])]⟩).length = 1 := rfl
    omega

/-- C6 amended: on the fixture (X = [1,2,3] at t = [0,5,10], window (0,10),
types ["avg","count"]), the modules implementation emits exactly two records —
avg = 2 and count = 3 — but its records carry neither a count field nor a
trip id (aggregation.py:433-444); the vA.0.2 implementation emits exactly one
row — avg = 2 with count 3, duration 10 and the (device, trip-start) trip
id — and no separate count record, since it does not support the "count"
aggregation type. -/
theorem claim_C6_amended :
    Aggregation.process_aggregation_for_trip (α := ℚ) "dev".data "msg".data
      ["X".data] ["avg".data, "count".data] (0, 10) "cl".data
      ⟨[0, 5, 10], [("X".data, [1, 2, 3])]⟩ =
    [⟨"dev".data, "cl".data, "msg".data, "X".data, "avg".data, 2, 0, 10, 0⟩,
     ⟨"dev".data, "cl".data, "msg".data, "X".data, "count".data, 3, 0, 10, 0⟩] ∧
    AggS3.process_aggregation_for_trip (α := ℚ) "dev".data "msg".data
      ["X".data] ["avg".data, "count".data] (0, 10) "cl".data
      ⟨[0, 5, 10], [("X".data, [1, 2, 3])]⟩ =
    [⟨"dev".data, "msg".data, "X".data, "avg".data, 2, 3, 10, 0, 10,
      ("dev".data, 0), "cl".data⟩] := by
  have hm : Aggregation.listMean ([1, 2, 3] : List ℚ) = 2 := by
    norm_num [Aggregation.listMean]
  constructor
  · have h0 : Aggregation.process_aggregation_for_trip (α := ℚ) "dev".data "msg".data
        ["X".data] ["avg".data, "count".data] (0, 10) "cl".data
        ⟨[0, 5, 10], [("X".data, [1, 2, 3])]⟩ =
      [⟨"dev".data, "cl".data, "msg".data, "X".data, "avg".data,
         Aggregation.listMean [1, 2, 3], 0, 10, 0⟩,
       ⟨"dev".data, "cl".data, "msg".data, "X".data, "count".data,
         ((3 : ℕ) : ℚ), 0, 10, 0⟩] := rfl
    rw [h0, hm]
    norm_num
  · have h0 : AggS3.process_aggregation_for_trip (α := ℚ) "dev".data "msg".data
        ["X".data] ["avg".data, "count".data] (0, 10) "cl".data
        ⟨[0, 5, 10], [("X".data, [1, 2, 3])]⟩ =
      [⟨"dev".data, "msg".data, "X".data, "avg".data,
         Aggregation.listMean [1, 2, 3], 3, (10 : ℚ) - 0, 0, 10,
         ("dev".data, 0), "cl".data⟩] := rfl
    rw [h0, hm]
    norm_num
